import Mathlib

/-!
Verification of the catalogue-alignment core of askapmetry.py.

The source program aligns per-beam point catalogues by iterative
cross-matching.  Its numeric values are IEEE doubles; here a float value is
modelled as an element of NF := Option ℚ, where none models NaN (the only
non-finite value the program can produce: np.mean of an empty array) and
arithmetic propagates none exactly as IEEE arithmetic propagates NaN, while
any comparison against NaN is false.

The astropy collaborators (search_around_sky separations,
spherical_offsets_to, spherical_offsets_by on NaN-able coordinates, the
float sqrt used by np.std, and the random index source of the reseeder) are
taken as parameters of the embedding; concrete instances used by witnesses
and counterexamples are defined below the core and documented there.
-/

namespace Askapmetry

/-- Model of an IEEE double as produced by the pipeline: some q is the finite
value q, none is NaN. -/
abbrev NF := Option ℚ

/-- Addition of NaN-able floats: NaN propagates. -/
def nfAdd (a b : NF) : NF :=
  match a, b with
  | some x, some y => some (x + y)
  | _, _ => none

/-- Subtraction of NaN-able floats: NaN propagates. -/
def nfSub (a b : NF) : NF :=
  match a, b with
  | some x, some y => some (x - y)
  | _, _ => none

/-- Multiplication of NaN-able floats: NaN propagates. -/
def nfMul (a b : NF) : NF :=
  match a, b with
  | some x, some y => some (x * y)
  | _, _ => none

/-- Division of NaN-able floats: NaN propagates (the pipeline only divides
by nonzero list lengths, so 0/0 never arises). -/
def nfDiv (a b : NF) : NF :=
  match a, b with
  | some x, some y => some (x / y)
  | _, _ => none

/-- Comparison s is less-or-equal L on NaN-able floats: false when s is NaN,
mirroring IEEE comparisons against NaN. -/
def nfLe (a : NF) (q : ℚ) : Bool :=
  match a with
  | some x => decide (x ≤ q)
  | none => false

/-- np.sum of a float array: 0.0 for the empty array, NaN if any entry is
NaN. -/
def nfSum (l : List NF) : NF :=
  l.foldl nfAdd (some 0)

/-- np.mean of a float array: NaN (a RuntimeWarning, not an exception) for
the empty array, otherwise the sum divided by the length. -/
def nfMean (l : List NF) : NF :=
  if l.length = 0 then none else nfDiv (nfSum l) (some (l.length : ℚ))

/-- np.std of a float array, with the concrete float square root abstracted
as sqrtA: NaN for the empty array, otherwise the root of the mean squared
deviation from the mean. -/
def nfStd (sqrtA : ℚ → ℚ) (l : List NF) : NF :=
  Option.map sqrtA
    (nfMean (l.map (fun x => nfMul (nfSub x (nfMean l)) (nfSub x (nfMean l)))))

/-- One row of a catalogue table: its ra and dec coordinates in degrees and
an opaque payload standing for every other column (fluxes etc.), which the
alignment code never touches. -/
structure Row where
  ra : NF
  dec : NF
  payload : ℕ
deriving DecidableEq

/-- A per-beam component catalogue, as the Catalogue dataclass of the
source: beam index, loaded table, original path (opaque token), rough beam
center, the fixed flag and the cumulative applied offset (ra, dec) in
arcseconds.  The offset defaults to (0, 0). -/
structure Catalogue where
  beam : ℕ
  table : List Row
  path : ℕ
  center : NF × NF
  fixed : Bool := false
  offset : NF × NF := (some 0, some 0)
deriving DecidableEq

/-- Default catalogue used only to give List.getD a junk value at indices
the program never reads out of range. -/
def dCat : Catalogue :=
  { beam := 0, table := [], path := 0, center := (some 0, some 0) }

/-- Default row for List.getD at in-range indices only. -/
def dRow : Row := { ra := some 0, dec := some 0, payload := 0 }

/-- Default sky position for List.getD at in-range indices only. -/
def dPt : NF × NF := (some 0, some 0)

/-- Result of matching catalogue 1 to catalogue 2, as the Match dataclass of
the source.  The field holding the index pairs is named match_indices here
because the word used by the source is reserved in Lean; BeamPair's field of
the same source name is matchres for the same reason. -/
structure Match where
  sky_pos_1 : List (NF × NF)
  sky_pos_2 : List (NF × NF)
  match_indices : List (ℕ × ℕ)
  match_1 : List (NF × NF)
  match_2 : List (NF × NF)
  n : ℕ
  offset_mean : NF × NF
  offset_std : NF × NF
  err_ra : List NF
  err_dec : List NF
deriving DecidableEq

/-- A stage in the alignment process, as the BeamPair dataclass. -/
structure BeamPair where
  fixed_beam_idx : ℕ
  shift_beam_idx : ℕ
  matchres : Match
deriving DecidableEq

/-- Statistics around one step of the alignment, as the StepInfo
dataclass. -/
structure StepInfo where
  accumulated_seps : NF
  number_of_matches : ℕ
deriving DecidableEq

/-- make_sky_coords: the (ra, dec) column pair of a catalogue table. -/
def make_sky_coords (table : List Row) : List (NF × NF) :=
  table.map (fun r => (r.ra, r.dec))

section Core

variable (sepOf : NF × NF → NF × NF → NF)
variable (offsTo : NF × NF → NF × NF → NF × NF)
variable (offsBy : NF × NF → NF → NF → NF × NF)
variable (sqrtA : ℚ → ℚ)
variable (choice : ℕ → ℕ)

/-- astropy search_around_sky on two coordinate lists: the index pairs
(i, j) whose on-sky separation sepOf is within the limit, i-major and
j-minor in index order, exactly the order of the returned index arrays. -/
def search_around_sky (a b : List (NF × NF)) (seplimit : ℚ) : List (ℕ × ℕ) :=
  (List.range a.length).flatMap (fun i =>
    ((List.range b.length).filter
        (fun j => nfLe (sepOf (a.getD i dPt) (b.getD j dPt)) seplimit)).map
      (fun j => (i, j)))

/-- calculate_matches of the source: search_around_sky between the two sky
coordinate lists, per-pair angular offsets through spherical_offsets_to
(abstracted as offsTo), and their per-axis mean and std.  The separation
limit defaults to 9 arcseconds as in the source. -/
def calculate_matches (catalogue_1 catalogue_2 : Catalogue)
    (sep_limit_arcsecond : ℚ := 9) : Match :=
  let sky_pos_1 := make_sky_coords catalogue_1.table
  let sky_pos_2 := make_sky_coords catalogue_2.table
  let found := search_around_sky sepOf sky_pos_1 sky_pos_2 sep_limit_arcsecond
  let match_1 := found.map (fun ij => sky_pos_1.getD ij.1 dPt)
  let match_2 := found.map (fun ij => sky_pos_2.getD ij.2 dPt)
  let err_ra := found.map (fun ij =>
    (offsTo (sky_pos_1.getD ij.1 dPt) (sky_pos_2.getD ij.2 dPt)).1)
  let err_dec := found.map (fun ij =>
    (offsTo (sky_pos_1.getD ij.1 dPt) (sky_pos_2.getD ij.2 dPt)).2)
  { sky_pos_1 := sky_pos_1
    sky_pos_2 := sky_pos_2
    match_indices := found
    match_1 := match_1
    match_2 := match_2
    n := match_2.length
    offset_mean := (nfMean err_ra, nfMean err_dec)
    offset_std := (nfStd sqrtA err_ra, nfStd sqrtA err_dec)
    err_ra := err_ra
    err_dec := err_dec }

/-- itertools.combinations(range K, 2): the pairs (i, j) with i < j < K in
lexicographic order. -/
def combosList (k : ℕ) : List (ℕ × ℕ) :=
  (List.range k).flatMap (fun i =>
    ((List.range k).filter (fun j => decide (i < j))).map (fun j => (i, j)))

/-- make_catalogue_matrix: the beam-to-beam match matrix as a function;
entry (b1, b2) with b1 < b2 holds the search_around_sky pair count at the
hard-coded 9 arcsecond limit, every other entry keeps its np.zeros value
0. -/
def make_catalogue_matrix (catalogues : List Catalogue) : ℕ → ℕ → ℕ :=
  fun b1 b2 =>
    if b1 < b2 ∧ b2 < catalogues.length then
      (search_around_sky sepOf
        (make_sky_coords (catalogues.getD b1 dCat).table)
        (make_sky_coords (catalogues.getD b2 dCat).table) 9).length
    else 0

end Core

/-- Best-so-far update of the greedy scans of the source (the
current_best_match loop of find_next_pair and np.argmax): replace the
accumulator exactly when the new measure is strictly greater, so the first
element attaining the maximum wins. -/
def updBest {α β : Type} [LinearOrder β] (m : α → β) (acc : Option α)
    (x : α) : Option α :=
  match acc with
  | none => some x
  | some b => if m b < m x then some x else some b

/-- np.sum(matrix, axis=0) of the K-by-K match matrix: the list of column
sums. -/
def column_sums (m : ℕ → ℕ → ℕ) (k : ℕ) : List ℕ :=
  (List.range k).map (fun j => ((List.range k).map (fun i => m i j)).sum)

/-- np.argmax of a list of naturals: index of the first occurrence of the
maximum (0 on the empty list, which the source never queries). -/
def np_argmax (l : List ℕ) : ℕ :=
  match ((List.range l.length).map (fun j => (j, l.getD j 0))).foldl
      (updBest (fun p => p.2)) none with
  | some b => b.1
  | none => 0

/-- Number of catalogues currently flagged fixed. -/
def countFixed (catalogues : List Catalogue) : ℕ :=
  (catalogues.filter (fun c => c.fixed)).length

/-- set_seed_catalogues of the source: column-sum the match matrix, argmax,
set that catalogue fixed; the trailing assert (exactly one fixed) is
modelled as returning none when it fires. -/
def set_seed_catalogues (catalogues : List Catalogue) (m : ℕ → ℕ → ℕ) :
    Option (List Catalogue) :=
  let sums := column_sums m catalogues.length
  let idx := np_argmax sums
  let cats1 := catalogues.set idx { catalogues.getD idx dCat with fixed := true }
  if countFixed cats1 = 1 then some cats1 else none

section Sched

variable (sepOf : NF × NF → NF × NF → NF)
variable (offsTo : NF × NF → NF × NF → NF × NF)
variable (offsBy : NF × NF → NF → NF → NF × NF)
variable (sqrtA : ℚ → ℚ)
variable (choice : ℕ → ℕ)

/-- Indices of the catalogues currently flagged fixed, in index order, as
the fixed_beam_idxs list comprehension of find_next_pair. -/
def fixed_beam_idxs (catalogues : List Catalogue) : List ℕ :=
  (List.range catalogues.length).filter
    (fun i => (catalogues.getD i dCat).fixed)

/-- Indices of the catalogues not yet fixed, in index order, as the
candidate_beam_idxs list comprehension of find_next_pair. -/
def candidate_beam_idxs (catalogues : List Catalogue) : List ℕ :=
  (List.range catalogues.length).filter
    (fun i => !(catalogues.getD i dCat).fixed)

/-- The (fixed idx, candidate idx, calculate_matches result) triples visited
by the nested loops of find_next_pair, in loop order: fixed index major,
candidate index minor. -/
def pair_items (catalogues : List Catalogue) : List (ℕ × ℕ × Match) :=
  (fixed_beam_idxs catalogues).flatMap (fun fixed_beam_idx =>
    (candidate_beam_idxs catalogues).map (fun candidate_beam_idx =>
      (fixed_beam_idx, candidate_beam_idx,
        calculate_matches sepOf offsTo sqrtA
          (catalogues.getD fixed_beam_idx dCat)
          (catalogues.getD candidate_beam_idx dCat))))

/-- find_next_pair of the source.  The outer none models the AssertionError
fired when no catalogue is fixed (it would also model the TypeError of
indexing with a never-assigned ideal index, which the nested loops make
unreachable); some none is the None return when no catalogue is left to
shift; otherwise the greedy scan keeps the strictly best match seen so
far. -/
def find_next_pair (catalogues : List Catalogue) :
    Option (Option BeamPair) :=
  if !(catalogues.any (fun c => c.fixed)) then none
  else if (candidate_beam_idxs catalogues).length = 0 then some none
  else
    match (pair_items sepOf offsTo sqrtA catalogues).foldl
        (updBest (fun t => t.2.2.n)) none with
    | some t => some (some ⟨t.1, t.2.1, t.2.2⟩)
    | none => none

/-- add_offset_to_coords_skyframeoffset of the source: every coordinate
pair is moved by spherical_offsets_by (abstracted as offsBy) applied to the
negated offset components, mirroring d_ra = zeros_like(coords) - offset[0]
and likewise for dec. -/
def add_offset_to_coords_skyframeoffset (sky_coords : List (NF × NF))
    (off : NF × NF) : List (NF × NF) :=
  sky_coords.map (fun p =>
    offsBy p (nfSub (some 0) off.1) (nfSub (some 0) off.2))

/-- add_offset_to_catalogue of the source: copy the table, write the shifted
ra and dec columns into the copy, deep-copy the catalogue, install the new
table and accumulate the applied offset field-wise onto the prior offset.
Every other field of the catalogue and every other column of each row is
carried over by the copies. -/
def add_offset_to_catalogue (catalogue : Catalogue) (off : NF × NF) :
    Catalogue :=
  let cata_table := catalogue.table
  let sky_coords := make_sky_coords cata_table
  let new_coords := add_offset_to_coords_skyframeoffset offsBy sky_coords off
  let cata_table2 := (List.range cata_table.length).map (fun i =>
    { cata_table.getD i dRow with
      ra := (new_coords.getD i dPt).1
      dec := (new_coords.getD i dPt).2 })
  { catalogue with
    table := cata_table2
    offset := (nfAdd off.1 catalogue.offset.1, nfAdd off.2 catalogue.offset.2) }

/-- Heap effect of add_offset_to_catalogue.  The source first copies the
table (catalogue.table.copy()) and deep-copies the catalogue; every
assignment in its body targets one of those two fresh objects (cata_table
ra and dec columns, new_cata.table, new_cata.offset), and none targets the
argument or anything reachable from it, so the state of the input object
after the call is the unchanged input.  The pair returned here is (input
object after the call, returned object). -/
def add_offset_to_catalogue_eff (catalogue : Catalogue) (off : NF × NF) :
    Catalogue × Catalogue :=
  (catalogue, add_offset_to_catalogue offsBy catalogue off)

/-- calculate_catalogue_jitter of the source: fold over the unordered
catalogue pairs accumulating the summed matched separations and the total
match count, starting from seps = 0 and no_matches = 0.  The limit defaults
to 9 arcseconds. -/
def calculate_catalogue_jitter (catalogues : List Catalogue)
    (sep_limit_arcsecond : ℚ := 9) : StepInfo :=
  let acc := (combosList catalogues.length).foldl
    (fun (acc : NF × ℕ) b =>
      let sky_pos_1 := make_sky_coords (catalogues.getD b.1 dCat).table
      let sky_pos_2 := make_sky_coords (catalogues.getD b.2 dCat).table
      let found := search_around_sky sepOf sky_pos_1 sky_pos_2
        sep_limit_arcsecond
      let seps := found.map (fun ij =>
        sepOf (sky_pos_1.getD ij.1 dPt) (sky_pos_2.getD ij.2 dPt))
      (nfAdd acc.1 (nfSum seps), acc.2 + seps.length))
    (some 0, 0)
  { accumulated_seps := acc.1, number_of_matches := acc.2 }

/-- reseed_initial_fixed_catalogue of the source, with the index drawn by
_select_random_index passed in: unfix every catalogue, then fix the chosen
one. -/
def reseed_initial_fixed_catalogue (k : ℕ) (catalogues : List Catalogue) :
    List Catalogue :=
  let cleared := catalogues.map (fun c => { c with fixed := false })
  cleared.set k { cleared.getD k dCat with fixed := true }

/-- State threaded through the scheduler loop: the catalogue list and the
step_statistics list of the source, plus two ghost fields never read by the
algorithm: rng counts the random draws consumed (the t-th reseed uses
choice t, modelling an injected random stream) and reseeds counts the steps
consumed by a reseed. -/
structure RunState where
  cats : List Catalogue
  stats : List StepInfo
  rng : ℕ
  reseeds : ℕ
deriving DecidableEq

/-- One iteration of the perform_iterative_shifter loop: find the next
pair; on None reseed with the next random index and continue (no shift, no
statistics); otherwise shift the chosen catalogue by the pair's mean
offset, mark it fixed, store it back, and append a jitter snapshot when
statistics are gathered.  none models an escaped exception (the
AssertionError of find_next_pair). -/
def perform_iterative_step (gather_statistics : Bool) (s : RunState) :
    Option RunState :=
  match find_next_pair sepOf offsTo sqrtA s.cats with
  | none => none
  | some none =>
      some { s with
        cats := reseed_initial_fixed_catalogue (choice s.rng) s.cats
        rng := s.rng + 1
        reseeds := s.reseeds + 1 }
  | some (some pair_match) =>
      let new_catalogue := add_offset_to_catalogue offsBy
        (s.cats.getD pair_match.shift_beam_idx dCat)
        pair_match.matchres.offset_mean
      let new_catalogue := { new_catalogue with fixed := true }
      let cats1 := s.cats.set pair_match.shift_beam_idx new_catalogue
      let stats1 := if gather_statistics then
          s.stats ++ [calculate_catalogue_jitter sepOf cats1]
        else s.stats
      some { s with cats := cats1, stats := stats1 }

/-- Iterate the scheduler step a given number of times, failing if any step
fails. -/
def run_steps (gather_statistics : Bool) : ℕ → RunState → Option RunState
  | 0, s => some s
  | n + 1, s =>
      match perform_iterative_step sepOf offsTo offsBy sqrtA choice
          gather_statistics s with
      | none => none
      | some s1 => run_steps gather_statistics n s1

/-- perform_iterative_shifter of the source: run exactly
len(catalogues) * passes steps of the loop from the given catalogues, with
empty statistics and fresh random stream.  The final plotting of the
statistics is an external collaborator and is not modelled. -/
def perform_iterative_shifter (catalogues : List Catalogue) (passes : ℕ)
    (gather_statistics : Bool) : Option RunState :=
  run_steps sepOf offsTo offsBy sqrtA choice gather_statistics
    (catalogues.length * passes)
    { cats := catalogues, stats := [], rng := 0, reseeds := 0 }

end Sched

/-! Exact real-number model of the spherical shift (claim about
add_offset_to_coords_skyframeoffset round trips).  Modelled from the spec:
the shift must be the spherical-geometry-correct angular offset
application realised by the astropy SkyOffsetFrame collaborator, which is
not part of this repository.  astropy's spherical_offsets_by(d_lon, d_lat)
at a position p realises the point with longitude d_lon and latitude d_lat
in the offset frame centred at p, i.e. the unit vector
cos(d_lat)cos(d_lon) p + cos(d_lat)sin(d_lon) east(p) + sin(d_lat) north(p)
where east(p) and north(p) are the local east and north unit tangent
vectors.  Positions are represented as Cartesian vectors so the model needs
no inverse trigonometry; it is exact for every position off the poles
(where east and north are well defined). -/

/-- A position on the sphere as a Cartesian vector (floating-point issues
are idealised away: components are exact reals). -/
structure Vec3 where
  x : ℝ
  y : ℝ
  z : ℝ

/-- Local east unit tangent vector at p (for p off the poles). -/
noncomputable def eastAt (p : Vec3) : Vec3 :=
  let r := Real.sqrt (p.x ^ 2 + p.y ^ 2)
  { x := -p.y / r, y := p.x / r, z := 0 }

/-- Local north unit tangent vector at p (for p off the poles and on the
unit sphere). -/
noncomputable def northAt (p : Vec3) : Vec3 :=
  let r := Real.sqrt (p.x ^ 2 + p.y ^ 2)
  { x := -p.z * p.x / r, y := -p.z * p.y / r, z := r }

/-- astropy spherical_offsets_by: realise longitude d_lon and latitude
d_lat (radians) in the sky offset frame centred at p. -/
noncomputable def spherical_offsets_by (p : Vec3) (dlon dlat : ℝ) : Vec3 :=
  { x := Real.cos dlat * Real.cos dlon * p.x
      + Real.cos dlat * Real.sin dlon * (eastAt p).x
      + Real.sin dlat * (northAt p).x
    y := Real.cos dlat * Real.cos dlon * p.y
      + Real.cos dlat * Real.sin dlon * (eastAt p).y
      + Real.sin dlat * (northAt p).y
    z := Real.cos dlat * Real.cos dlon * p.z
      + Real.cos dlat * Real.sin dlon * (eastAt p).z
      + Real.sin dlat * (northAt p).z }

/-- Conversion of the arcsecond offsets carried by the pipeline to the
radians consumed by the frame realisation. -/
noncomputable def arcsec_to_rad (a : ℝ) : ℝ := a * (Real.pi / 648000)

/-- add_offset_to_coords_skyframeoffset of the source, on the exact
spherical model: the offset components (arcseconds) are negated
(d_ra = 0 - offset[0], d_dec = 0 - offset[1]) and handed to
spherical_offsets_by. -/
noncomputable def add_offset_to_coords_model (p : Vec3) (offRa offDec : ℝ) :
    Vec3 :=
  spherical_offsets_by p (arcsec_to_rad ((0 : ℝ) - offRa))
    (arcsec_to_rad ((0 : ℝ) - offDec))

/-! Concrete collaborator instances used by witnesses and counterexamples.
All concrete configurations below keep every point on the celestial
equator (dec = 0) with ra differences well under a degree, where the exact
angular separation between two positions is the absolute ra difference and
the spherical offset decomposition degenerates to coordinate differences,
so the flat instances below agree with the astropy collaborators on those
configurations.  Coordinates are carried in arcseconds in these demo
configurations so that they compare directly against the arcsecond
separation limit. -/

/-- Demo separation: taxicab distance of the coordinate pairs, NaN if any
coordinate is NaN.  Equals the true angular separation on the equatorial
configurations used below. -/
def sepDemo (p q : NF × NF) : NF :=
  match p.1, p.2, q.1, q.2 with
  | some r1, some d1, some r2, some d2 => some (|r1 - r2| + |d1 - d2|)
  | _, _, _, _ => none

/-- Demo spherical_offsets_to: plain coordinate differences (second minus
first), exact on the equatorial configurations used below. -/
def offsToDemo (p q : NF × NF) : NF × NF :=
  (nfSub q.1 p.1, nfSub q.2 p.2)

/-- Demo spherical_offsets_by: plain coordinate addition, exact on the
equatorial configurations used below; NaN offsets give NaN coordinates as
in astropy. -/
def offsByDemo (p : NF × NF) (dra ddec : NF) : NF × NF :=
  (nfAdd p.1 dra, nfAdd p.2 ddec)

/-- Demo float square root (only the NaN-ness of np.std is ever at stake in
the claims, never its value). -/
def sqrtADemo : ℚ → ℚ := id

/-- Demo random stream: always draw index 0. -/
def choiceDemo : ℕ → ℕ := fun _ => 0

/-- Row at an equatorial position, coordinates in arcseconds. -/
def rowAt (r : ℚ) (pay : ℕ) : Row :=
  { ra := some r, dec := some 0, payload := pay }

/-- Catalogue X of the seed-selection counterexample: sources at ra 0 and
100 arcseconds. -/
def cataX : Catalogue :=
  { beam := 0, table := [rowAt 0 0, rowAt 100 1], path := 0,
    center := (some 0, some 0) }

/-- Catalogue Y of the seed-selection counterexample: sources at ra 5 and
105 arcseconds, hence two matches to X within the 9 arcsecond limit. -/
def cataY : Catalogue :=
  { beam := 1, table := [rowAt 5 0, rowAt 105 1], path := 1,
    center := (some 5, some 0) }

/-- Catalogue Z of the seed-selection counterexample: one source at ra -5
arcseconds, hence one match to X (5 arcsec) and none to Y (10 arcsec). -/
def cataZ : Catalogue :=
  { beam := 2, table := [rowAt (-5) 0], path := 2,
    center := (some (-5), some 0) }

/-- Fixed single-source catalogue of the degenerate no-match run. -/
def cataA : Catalogue :=
  { beam := 0, table := [rowAt 0 0], path := 0, center := (some 0, some 0),
    fixed := true }

/-- Floating single-source catalogue 1000 arcseconds away from cataA, far
beyond the 9 arcsecond limit, so the pair has zero matches. -/
def cataB : Catalogue :=
  { beam := 1, table := [rowAt 1000 0], path := 1,
    center := (some 1000, some 0) }

/-- Floating single-source catalogue 5 arcseconds from cataA, matching it
within the limit. -/
def cataC : Catalogue :=
  { beam := 1, table := [rowAt 5 0], path := 1, center := (some 5, some 0) }

/-- Row and column total of a catalogue in the match matrix.  This is the
selection total described by the spec for seed selection (the claim's
combined row+column match count of a catalogue); the source instead sums
only the column (np.sum(matrix, axis=0)). -/
def spec_row_col_total (m : ℕ → ℕ → ℕ) (k i : ℕ) : ℕ :=
  ((List.range k).map (fun j => m i j)).sum
    + ((List.range k).map (fun j => m j i)).sum

/-- The calculate_matches result between cataA and cataB, written out: no
pair is within the limit, so the offset statistics are NaN. -/
def matchAB : Match :=
  { sky_pos_1 := [(some 0, some 0)]
    sky_pos_2 := [(some 1000, some 0)]
    match_indices := []
    match_1 := []
    match_2 := []
    n := 0
    offset_mean := (none, none)
    offset_std := (none, none)
    err_ra := []
    err_dec := [] }

/-- The catalogue cataB after the degenerate step applies the NaN mean
offset: position coordinates and cumulative offset are all NaN, the
payload survives, and the catalogue is marked fixed. -/
def cataBShift : Catalogue :=
  { beam := 1, table := [{ ra := none, dec := none, payload := 0 }],
    path := 1, center := (some 1000, some 0), fixed := true,
    offset := (none, none) }

/-- cataBShift with its fixed flag cleared again by the reseed that ends
the degenerate run. -/
def cataBFinal : Catalogue := { cataBShift with fixed := false }

/-- The jitter snapshot recorded on the degenerate shift step: NaN
positions match nothing, so zero matches and zero accumulated
separation. -/
def stepInfoZero : StepInfo := { accumulated_seps := some 0, number_of_matches := 0 }

/-! End of definitions; everything below is lemmas and theorems. -/

/-- updBest from an empty accumulator takes the new element. -/
lemma updBest_none {α β : Type} [LinearOrder β] (m : α → β) (x : α) :
    updBest m none x = some x := rfl

/-- updBest keeps the accumulator unless the new measure is strictly
greater. -/
lemma updBest_some {α β : Type} [LinearOrder β] (m : α → β) (b x : α) :
    updBest m (some b) x = if m b < m x then some x else some b := rfl

/-- Greedy strict-improvement fold from a nonempty accumulator: the result
either is the untouched accumulator bounding the whole list, or is a list
element strictly better than the accumulator, strictly better than
everything before it and at least as good as everything in the list. -/
lemma foldl_updBest_some {α β : Type} [LinearOrder β] (m : α → β) :
    ∀ (l : List α) (b : α), ∃ b', l.foldl (updBest m) (some b) = some b' ∧
      ((b' = b ∧ ∀ x ∈ l, m x ≤ m b) ∨
        (m b < m b' ∧ ∃ pre post, l = pre ++ b' :: post ∧
          (∀ x ∈ pre, m x < m b') ∧ (∀ x ∈ l, m x ≤ m b'))) := by
  intro l
  induction l with
  | nil => exact fun b => ⟨b, rfl, Or.inl ⟨rfl, by simp⟩⟩
  | cons x xs ih =>
      intro b
      by_cases h : m b < m x
      · obtain ⟨b', hb', hcase⟩ := ih x
        refine ⟨b', ?_, ?_⟩
        · simpa [updBest_some, h] using hb'
        · rcases hcase with ⟨rfl, hall⟩ | ⟨hlt, pre, post, hsplit, hpre, hall⟩
          · exact Or.inr ⟨h, [], xs, rfl, by simp,
              by
                intro y hy
                rcases List.mem_cons.mp hy with rfl | hy
                · exact le_refl _
                · exact hall y hy⟩
          · refine Or.inr ⟨lt_trans h hlt, x :: pre, post, by rw [hsplit]; rfl, ?_, ?_⟩
            · intro y hy
              rcases List.mem_cons.mp hy with rfl | hy
              · exact hlt
              · exact hpre y hy
            · intro y hy
              rcases List.mem_cons.mp hy with rfl | hy
              · exact le_of_lt hlt
              · exact hall y hy
      · obtain ⟨b', hb', hcase⟩ := ih b
        refine ⟨b', ?_, ?_⟩
        · simpa [updBest_some, h] using hb'
        · rcases hcase with ⟨rfl, hall⟩ | ⟨hlt, pre, post, hsplit, hpre, hall⟩
          · exact Or.inl ⟨rfl, by
              intro y hy
              rcases List.mem_cons.mp hy with rfl | hy
              · exact le_of_not_lt h
              · exact hall y hy⟩
          · refine Or.inr ⟨hlt, x :: pre, post, by rw [hsplit]; rfl, ?_, ?_⟩
            · intro y hy
              rcases List.mem_cons.mp hy with rfl | hy
              · exact lt_of_le_of_lt (le_of_not_lt h) hlt
              · exact hpre y hy
            · intro y hy
              rcases List.mem_cons.mp hy with rfl | hy
              · exact le_of_lt (lt_of_le_of_lt (le_of_not_lt h) hlt)
              · exact hall y hy

/-- Greedy strict-improvement fold over a nonempty list: the result is the
first element attaining the maximum measure — every earlier element is
strictly worse and no element is better. -/
lemma foldl_updBest_none {α β : Type} [LinearOrder β] (m : α → β)
    (l : List α) (hl : l ≠ []) :
    ∃ b pre post, l.foldl (updBest m) none = some b ∧ l = pre ++ b :: post ∧
      (∀ x ∈ pre, m x < m b) ∧ (∀ x ∈ l, m x ≤ m b) := by
  cases l with
  | nil => exact absurd rfl hl
  | cons x xs =>
      obtain ⟨b', hb', hcase⟩ := foldl_updBest_some m xs x
      have hfold : (x :: xs).foldl (updBest m) none = some b' := by
        simpa [List.foldl_cons, updBest_none] using hb'
      rcases hcase with ⟨rfl, hall⟩ | ⟨hlt, pre, post, hsplit, hpre, hall⟩
      · exact ⟨b', [], xs, hfold, rfl, by simp, by
          intro y hy
          rcases List.mem_cons.mp hy with rfl | hy
          · exact le_refl _
          · exact hall y hy⟩
      · refine ⟨b', x :: pre, post, hfold, by rw [hsplit]; rfl, ?_, ?_⟩
        · intro y hy
          rcases List.mem_cons.mp hy with rfl | hy
          · exact hlt
          · exact hpre y hy
        · intro y hy
          rcases List.mem_cons.mp hy with rfl | hy
          · exact le_of_lt hlt
          · exact hall y hy

/-- getD of a list at an in-range index is the element there. -/
lemma getD_eq (l : List Catalogue) {i : ℕ} (d : Catalogue)
    (h : i < l.length) : l.getD i d = l[i] :=
  List.getD_eq_getElem l d h

/-- getD after setting the same in-range index. -/
lemma getD_set_self {α : Type} (l : List α) {i : ℕ} (a d : α)
    (h : i < l.length) : (l.set i a).getD i d = a := by
  simp [List.getD_eq_getElem?_getD, List.getElem?_set, h]

/-- getD after setting a different index. -/
lemma getD_set_ne {α : Type} (l : List α) {i j : ℕ} (a d : α)
    (h : i ≠ j) : (l.set i a).getD j d = l.getD j d := by
  simp [List.getD_eq_getElem?_getD, List.getElem?_set, h]

/-- countFixed of a cons splits on the head flag. -/
lemma countFixed_cons (c : Catalogue) (l : List Catalogue) :
    countFixed (c :: l) = (if c.fixed then 1 else 0) + countFixed l := by
  by_cases h : c.fixed
  · simp [countFixed, List.filter_cons, h]
    omega
  · simp [countFixed, List.filter_cons, h]

/-- A collection with no fixed catalogue has countFixed zero. -/
lemma countFixed_eq_zero {l : List Catalogue}
    (h : ∀ c ∈ l, c.fixed = false) : countFixed l = 0 := by
  unfold countFixed
  rw [List.length_eq_zero, List.filter_eq_nil_iff]
  intro c hc
  simp [h c hc]

/-- Setting a fixed catalogue into an all-floating collection leaves exactly
one fixed. -/
lemma countFixed_set_one :
    ∀ (l : List Catalogue) (i : ℕ) (c : Catalogue),
      (∀ x ∈ l, x.fixed = false) → i < l.length → c.fixed = true →
      countFixed (l.set i c) = 1 := by
  intro l
  induction l with
  | nil => intro i c _ hi _; simp at hi
  | cons x xs ih =>
      intro i c hall hi hc
      cases i with
      | zero =>
          have hxs : countFixed xs = 0 :=
            countFixed_eq_zero (fun y hy => hall y (List.mem_cons_of_mem x hy))
          simp [List.set, countFixed_cons, hc, hxs]
      | succ n =>
          have hx : x.fixed = false := hall x (List.mem_cons_self x xs)
          have hn : n < xs.length := by simpa using hi
          have := ih n c (fun y hy => hall y (List.mem_cons_of_mem x hy)) hn hc
          simp [List.set, countFixed_cons, hx, this]

/-- Replacing a floating catalogue by a fixed one bumps countFixed by
one. -/
lemma countFixed_set_succ :
    ∀ (l : List Catalogue) (i : ℕ) (c : Catalogue),
      i < l.length → (l.getD i dCat).fixed = false → c.fixed = true →
      countFixed (l.set i c) = countFixed l + 1 := by
  intro l
  induction l with
  | nil => intro i c hi _ _; simp at hi
  | cons x xs ih =>
      intro i c hi hold hc
      cases i with
      | zero =>
          have hx : x.fixed = false := by simpa [List.getD] using hold
          simp [List.set, countFixed_cons, hc, hx]
          omega
      | succ n =>
          have hn : n < xs.length := by simpa using hi
          have hold' : (xs.getD n dCat).fixed = false := by
            simpa [List.getD] using hold
          have := ih n c hn hold' hc
          by_cases hx : x.fixed
          · simp [List.set, countFixed_cons, hx, this]
            omega
          · simp [List.set, countFixed_cons, hx, this]

/-- A collection in which some catalogue is fixed has a nonempty fixed
index list. -/
lemma fixed_beam_idxs_ne_nil {cats : List Catalogue}
    (h : cats.any (fun c => c.fixed) = true) :
    fixed_beam_idxs cats ≠ [] := by
  obtain ⟨c, hc, hfx⟩ := List.any_eq_true.mp h
  obtain ⟨i, hi, hget⟩ := List.mem_iff_getElem.mp hc
  apply List.ne_nil_of_mem (a := i)
  apply List.mem_filter.mpr
  refine ⟨List.mem_range.mpr hi, ?_⟩
  rw [getD_eq cats dCat hi, hget]
  exact hfx

/-- Members of the fixed index list are in range and flagged fixed. -/
lemma mem_fixed_beam_idxs {cats : List Catalogue} {i : ℕ}
    (h : i ∈ fixed_beam_idxs cats) :
    i < cats.length ∧ (cats.getD i dCat).fixed = true := by
  obtain ⟨hr, hp⟩ := List.mem_filter.mp h
  exact ⟨List.mem_range.mp hr, hp⟩

/-- Members of the candidate index list are in range and floating. -/
lemma mem_candidate_beam_idxs {cats : List Catalogue} {i : ℕ}
    (h : i ∈ candidate_beam_idxs cats) :
    i < cats.length ∧ (cats.getD i dCat).fixed = false := by
  obtain ⟨hr, hp⟩ := List.mem_filter.mp h
  exact ⟨List.mem_range.mp hr, by simpa using hp⟩

/-- The nested loops of find_next_pair visit at least one pair as soon as
a fixed and a floating catalogue exist. -/
lemma pair_items_ne_nil (sepOf : NF × NF → NF × NF → NF)
    (offsTo : NF × NF → NF × NF → NF × NF) (sqrtA : ℚ → ℚ)
    {cats : List Catalogue} (hf : fixed_beam_idxs cats ≠ [])
    (hc : candidate_beam_idxs cats ≠ []) :
    pair_items sepOf offsTo sqrtA cats ≠ [] := by
  unfold pair_items
  cases hfl : fixed_beam_idxs cats with
  | nil => exact absurd hfl hf
  | cons f fs =>
      cases hcl : candidate_beam_idxs cats with
      | nil => exact absurd hcl hc
      | cons c cs => simp

/-- Every element of pair_items is a fixed index, a candidate index, and
their calculate_matches result. -/
lemma mem_pair_items {sepOf : NF × NF → NF × NF → NF}
    {offsTo : NF × NF → NF × NF → NF × NF} {sqrtA : ℚ → ℚ}
    {cats : List Catalogue} {t : ℕ × ℕ × Match}
    (h : t ∈ pair_items sepOf offsTo sqrtA cats) :
    t.1 ∈ fixed_beam_idxs cats ∧ t.2.1 ∈ candidate_beam_idxs cats ∧
      t.2.2 = calculate_matches sepOf offsTo sqrtA
        (cats.getD t.1 dCat) (cats.getD t.2.1 dCat) := by
  unfold pair_items at h
  rw [List.mem_flatMap] at h
  obtain ⟨f, hf, ht⟩ := h
  rw [List.mem_map] at ht
  obtain ⟨c, hc, rfl⟩ := ht
  exact ⟨hf, hc, rfl⟩

/-- Characterisation of find_next_pair whenever at least one fixed and at
least one floating catalogue exist: the returned pair occurs in the loop
enumeration pair_items, every earlier entry has a strictly smaller count,
and no entry has a larger count. -/
lemma find_next_pair_spec (sepOf : NF × NF → NF × NF → NF)
    (offsTo : NF × NF → NF × NF → NF × NF) (sqrtA : ℚ → ℚ)
    (cats : List Catalogue)
    (hfix : cats.any (fun c => c.fixed) = true)
    (hcand : (candidate_beam_idxs cats).length ≠ 0) :
    ∃ bp pre post,
      find_next_pair sepOf offsTo sqrtA cats = some (some bp) ∧
      pair_items sepOf offsTo sqrtA cats
        = pre ++ (bp.fixed_beam_idx, bp.shift_beam_idx, bp.matchres) :: post ∧
      (∀ x ∈ pre, x.2.2.n < bp.matchres.n) ∧
      (∀ x ∈ pair_items sepOf offsTo sqrtA cats, x.2.2.n ≤ bp.matchres.n) := by
  have hf : fixed_beam_idxs cats ≠ [] := fixed_beam_idxs_ne_nil hfix
  have hc : candidate_beam_idxs cats ≠ [] := by
    intro h
    exact hcand (by rw [h]; rfl)
  obtain ⟨b, pre, post, hfold, hsplit, hpre, hall⟩ :=
    foldl_updBest_none (fun t : ℕ × ℕ × Match => t.2.2.n)
      (pair_items sepOf offsTo sqrtA cats)
      (pair_items_ne_nil sepOf offsTo sqrtA hf hc)
  refine ⟨⟨b.1, b.2.1, b.2.2⟩, pre, post, ?_, ?_, hpre, hall⟩
  · unfold find_next_pair
    rw [hfix]
    simp only [Bool.not_true, Bool.false_eq_true, if_false]
    rw [if_neg hcand, hfold]
  · simpa using hsplit

/-- C3: at each scheduler step with at least one fixed and at least one
floating catalogue, find_next_pair returns the (fixed, floating) pair whose
cross-match count is maximal over the whole fixed-by-floating enumeration
(not per fixed catalogue independently), ties broken by the first pair in
the fixed-major, index-ascending loop order: the returned pair occurs in
pair_items, every earlier entry has a strictly smaller count, and no entry
has a larger count. -/
theorem find_next_pair_is_first_max (sepOf : NF × NF → NF × NF → NF)
    (offsTo : NF × NF → NF × NF → NF × NF) (sqrtA : ℚ → ℚ)
    (cats : List Catalogue)
    (hfix : cats.any (fun c => c.fixed) = true)
    (hcand : (candidate_beam_idxs cats).length ≠ 0) :
    ∃ bp pre post,
      find_next_pair sepOf offsTo sqrtA cats = some (some bp) ∧
      pair_items sepOf offsTo sqrtA cats
        = pre ++ (bp.fixed_beam_idx, bp.shift_beam_idx, bp.matchres) :: post ∧
      (∀ x ∈ pre, x.2.2.n < bp.matchres.n) ∧
      (∀ x ∈ pair_items sepOf offsTo sqrtA cats, x.2.2.n ≤ bp.matchres.n) :=
  find_next_pair_spec sepOf offsTo sqrtA cats hfix hcand

/-- The column-sum list of a K-by-K matrix has length K. -/
lemma column_sums_length (m : ℕ → ℕ → ℕ) (k : ℕ) :
    (column_sums m k).length = k := by
  simp [column_sums]

/-- np.argmax on a nonempty list of naturals: the result indexes the list,
bounds every entry from above, and every entry strictly before it is
strictly smaller (first-occurrence tie-break). -/
lemma np_argmax_spec (l : List ℕ) (hl : l ≠ []) :
    np_argmax l < l.length ∧
    (∀ j < l.length, l.getD j 0 ≤ l.getD (np_argmax l) 0) ∧
    (∀ j < np_argmax l, l.getD j 0 < l.getD (np_argmax l) 0) := by
  have hlen : 0 < l.length := List.length_pos.mpr hl
  set items : List (ℕ × ℕ) :=
    (List.range l.length).map (fun j => (j, l.getD j 0)) with hitems
  have hitems_len : items.length = l.length := by simp [hitems]
  have hitems_get : ∀ (k : ℕ) (hk : k < items.length),
      items[k] = (k, l.getD k 0) := by
    intro k hk
    simp [hitems, List.getElem_map, List.getElem_range]
  have hne : items ≠ [] := by
    intro h
    rw [h] at hitems_len
    simp at hitems_len
    omega
  obtain ⟨b, pre, post, hfold, hsplit, hpre, hall⟩ :=
    foldl_updBest_none (fun p : ℕ × ℕ => p.2) items hne
  have hargmax : np_argmax l = b.1 := by
    unfold np_argmax
    rw [← hitems, hfold]
  have hprelen : pre.length < items.length := by
    rw [hsplit]
    simp [List.length_append]
  have hb_eq : b = (pre.length, l.getD pre.length 0) := by
    have h1 : items[pre.length] = b := by
      rw [List.getElem_of_eq hsplit hprelen]
      rw [List.getElem_append_right (le_refl pre.length)]
      simp
    rw [← h1, hitems_get pre.length hprelen]
  have hb1 : b.1 = pre.length := by rw [hb_eq]
  have hb2 : b.2 = l.getD b.1 0 := by rw [hb_eq]
  have hmem : ∀ j < l.length, (j, l.getD j 0) ∈ items := by
    intro j hj
    rw [hitems]
    exact List.mem_map.mpr ⟨j, List.mem_range.mpr hj, rfl⟩
  refine ⟨?_, ?_, ?_⟩
  · rw [hargmax, hb1]
    omega
  · intro j hj
    have := hall (j, l.getD j 0) (hmem j hj)
    rw [hargmax, ← hb2]
    exact this
  · intro j hj
    rw [hargmax] at hj
    have hjpre : j < pre.length := by omega
    have hjlen : j < items.length := by omega
    have hpair : items[j] ∈ pre := by
      have h2 : items[j] = pre[j] := by
        rw [List.getElem_of_eq hsplit hjlen]
        exact List.getElem_append_left hjpre
      rw [h2]
      exact List.getElem_mem _
    have hval : items[j] = (j, l.getD j 0) := hitems_get j hjlen
    have := hpre _ hpair
    rw [hval] at this
    rw [hargmax, ← hb2]
    exact this

/-- C2 (amended): seed selection fixes the catalogue whose match-matrix
column sum (np.sum(matrix, axis=0), i.e. its matches against lower-indexed
catalogues only) is maximal, ties broken by the first index attaining the
maximum; starting from an all-floating collection it returns with exactly
one catalogue fixed and every other catalogue untouched. -/
theorem set_seed_fixes_first_column_argmax (sepOf : NF × NF → NF × NF → NF)
    (cats : List Catalogue) (hne : cats ≠ [])
    (hall : ∀ c ∈ cats, c.fixed = false) :
    ∃ cs idx,
      idx = np_argmax (column_sums (make_catalogue_matrix sepOf cats)
        cats.length) ∧
      set_seed_catalogues cats (make_catalogue_matrix sepOf cats)
        = some cs ∧
      idx < cats.length ∧
      countFixed cs = 1 ∧
      (cs.getD idx dCat).fixed = true ∧
      (∀ i < cats.length, i ≠ idx → cs.getD i dCat = cats.getD i dCat) ∧
      (∀ j < cats.length,
        (column_sums (make_catalogue_matrix sepOf cats) cats.length).getD j 0
          ≤ (column_sums (make_catalogue_matrix sepOf cats)
              cats.length).getD idx 0) ∧
      (∀ j < idx,
        (column_sums (make_catalogue_matrix sepOf cats) cats.length).getD j 0
          < (column_sums (make_catalogue_matrix sepOf cats)
              cats.length).getD idx 0) := by
  have hlen : 0 < cats.length := List.length_pos.mpr hne
  set m := make_catalogue_matrix sepOf cats with hm
  set sums := column_sums m cats.length with hsums
  have hsums_len : sums.length = cats.length := column_sums_length m _
  have hsums_ne : sums ≠ [] := by
    intro h
    rw [h] at hsums_len
    simp at hsums_len
    omega
  obtain ⟨hidx_lt, hmax, hfirst⟩ := np_argmax_spec sums hsums_ne
  set idx := np_argmax sums with hidx
  have hidx_cats : idx < cats.length := by omega
  set cs := cats.set idx { cats.getD idx dCat with fixed := true } with hcs
  have hcount : countFixed cs = 1 :=
    countFixed_set_one cats idx _ hall hidx_cats rfl
  refine ⟨cs, idx, rfl, ?_, hidx_cats, hcount, ?_, ?_, ?_, ?_⟩
  · show (if countFixed cs = 1 then some cs else none) = some cs
    rw [if_pos hcount]
  · rw [hcs, getD_set_self cats _ dCat hidx_cats]
  · intro i hi hne_i
    rw [hcs]
    exact getD_set_ne cats _ dCat (fun h => hne_i h.symm)
  · intro j hj
    exact hmax j (by omega)
  · exact hfirst

/-- Matrix entry (0,1) of the X, Y, Z configuration: both X sources match
their Y counterparts at 5 arcsec. -/
lemma mm_XYZ_01 : make_catalogue_matrix sepDemo [cataX, cataY, cataZ] 0 1 = 2 := by
  norm_num [make_catalogue_matrix, search_around_sky, make_sky_coords, nfLe,
    sepDemo, cataX, cataY, cataZ, rowAt, List.range_succ]

/-- Matrix entry (0,2): the single Z source matches the first X source at 5
arcsec. -/
lemma mm_XYZ_02 : make_catalogue_matrix sepDemo [cataX, cataY, cataZ] 0 2 = 1 := by
  norm_num [make_catalogue_matrix, search_around_sky, make_sky_coords, nfLe,
    sepDemo, cataX, cataY, cataZ, rowAt, List.range_succ]

/-- Matrix entry (1,2): the Z source is 10 arcsec from the nearest Y
source, past the 9 arcsec limit. -/
lemma mm_XYZ_12 : make_catalogue_matrix sepDemo [cataX, cataY, cataZ] 1 2 = 0 := by
  norm_num [make_catalogue_matrix, search_around_sky, make_sky_coords, nfLe,
    sepDemo, cataX, cataY, cataZ, rowAt, List.range_succ]

/-- Every matrix entry outside the strict upper triangle keeps its np.zeros
value. -/
lemma mm_lower_zero (sepOf : NF × NF → NF × NF → NF) (cats : List Catalogue)
    {i j : ℕ} (h : ¬(i < j ∧ j < cats.length)) :
    make_catalogue_matrix sepOf cats i j = 0 := by
  simp [make_catalogue_matrix, h]

/-- Column sums of the X, Y, Z match matrix: catalogue 0 receives nothing
(its column is below the diagonal), catalogue 1 receives its two matches
with X, catalogue 2 its one match with X. -/
lemma col_sums_XYZ :
    column_sums (make_catalogue_matrix sepDemo [cataX, cataY, cataZ]) 3
      = [0, 2, 1] := by
  have h00 := mm_lower_zero sepDemo [cataX, cataY, cataZ] (i := 0) (j := 0) (by omega)
  have h10 := mm_lower_zero sepDemo [cataX, cataY, cataZ] (i := 1) (j := 0) (by omega)
  have h20 := mm_lower_zero sepDemo [cataX, cataY, cataZ] (i := 2) (j := 0) (by omega)
  have h11 := mm_lower_zero sepDemo [cataX, cataY, cataZ] (i := 1) (j := 1) (by omega)
  have h21 := mm_lower_zero sepDemo [cataX, cataY, cataZ] (i := 2) (j := 1) (by omega)
  have h22 := mm_lower_zero sepDemo [cataX, cataY, cataZ] (i := 2) (j := 2) (by omega)
  simp [column_sums, List.range_succ, h00, h10, h20, h11, h21, h22,
    mm_XYZ_01, mm_XYZ_02, mm_XYZ_12]

/-- np.argmax of the X, Y, Z column sums picks catalogue 1. -/
lemma argmax_XYZ : np_argmax [0, 2, 1] = 1 := by
  norm_num [np_argmax, updBest, List.range_succ]

/-- Seed selection on the X, Y, Z configuration fixes catalogue 1. -/
lemma seed_XYZ :
    set_seed_catalogues [cataX, cataY, cataZ]
        (make_catalogue_matrix sepDemo [cataX, cataY, cataZ])
      = some [cataX, { cataY with fixed := true }, cataZ] := by
  have hc : column_sums (make_catalogue_matrix sepDemo [cataX, cataY, cataZ])
      ([cataX, cataY, cataZ].length) = [0, 2, 1] := col_sums_XYZ
  simp only [set_seed_catalogues]
  rw [hc, argmax_XYZ]
  norm_num [countFixed, cataX, cataY, cataZ, rowAt, List.set]

/-- C2 counterexample: on the X, Y, Z configuration the source fixes
catalogue 1, whose combined row+column match total (2) is not maximal —
catalogue 0 totals 3 — refuting the claim that the seed is a catalogue of
maximal row (or row+column) total; with row+column totals the tie-break
would not even be exercised. -/
theorem seed_selection_counterexample :
    (set_seed_catalogues [cataX, cataY, cataZ]
        (make_catalogue_matrix sepDemo [cataX, cataY, cataZ])).map
      (fun cs => cs.map (fun c => c.fixed)) = some [false, true, false] ∧
    spec_row_col_total (make_catalogue_matrix sepDemo [cataX, cataY, cataZ])
        3 1
      < spec_row_col_total (make_catalogue_matrix sepDemo
        [cataX, cataY, cataZ]) 3 0 := by
  constructor
  · rw [seed_XYZ]
    simp [cataX, cataY, cataZ, rowAt]
  · have h00 := mm_lower_zero sepDemo [cataX, cataY, cataZ] (i := 0) (j := 0) (by omega)
    have h10 := mm_lower_zero sepDemo [cataX, cataY, cataZ] (i := 1) (j := 0) (by omega)
    have h20 := mm_lower_zero sepDemo [cataX, cataY, cataZ] (i := 2) (j := 0) (by omega)
    have h11 := mm_lower_zero sepDemo [cataX, cataY, cataZ] (i := 1) (j := 1) (by omega)
    have h21 := mm_lower_zero sepDemo [cataX, cataY, cataZ] (i := 2) (j := 1) (by omega)
    simp [spec_row_col_total, List.range_succ, h00, h10, h20, h11, h21,
      mm_XYZ_01, mm_XYZ_02, mm_XYZ_12]

/-- Witness for the amended C2 theorem at the concrete X, Y, Z
configuration. -/
theorem set_seed_fixes_first_column_argmax_witness :
    ∃ cs idx,
      idx = np_argmax (column_sums
        (make_catalogue_matrix sepDemo [cataX, cataY, cataZ])
        [cataX, cataY, cataZ].length) ∧
      set_seed_catalogues [cataX, cataY, cataZ]
          (make_catalogue_matrix sepDemo [cataX, cataY, cataZ])
        = some cs ∧
      idx < [cataX, cataY, cataZ].length ∧
      countFixed cs = 1 ∧
      (cs.getD idx dCat).fixed = true ∧
      (∀ i < [cataX, cataY, cataZ].length, i ≠ idx →
        cs.getD i dCat = [cataX, cataY, cataZ].getD i dCat) ∧
      (∀ j < [cataX, cataY, cataZ].length,
        (column_sums (make_catalogue_matrix sepDemo [cataX, cataY, cataZ])
            [cataX, cataY, cataZ].length).getD j 0
          ≤ (column_sums (make_catalogue_matrix sepDemo
              [cataX, cataY, cataZ]) [cataX, cataY, cataZ].length).getD
              idx 0) ∧
      (∀ j < idx,
        (column_sums (make_catalogue_matrix sepDemo [cataX, cataY, cataZ])
            [cataX, cataY, cataZ].length).getD j 0
          < (column_sums (make_catalogue_matrix sepDemo
              [cataX, cataY, cataZ]) [cataX, cataY, cataZ].length).getD
              idx 0) :=
  set_seed_fixes_first_column_argmax sepDemo [cataX, cataY, cataZ]
    (by simp) (by intro c hc; fin_cases hc <;> rfl)

/-- The fixed index list of the cataA, cataC configuration. -/
lemma fixed_idxs_AC : fixed_beam_idxs [cataA, cataC] = [0] := by
  norm_num [fixed_beam_idxs, cataA, cataC, rowAt, dCat, List.range_succ,
    List.getD]

/-- The candidate index list of the cataA, cataC configuration. -/
lemma cand_idxs_AC : candidate_beam_idxs [cataA, cataC] = [1] := by
  norm_num [candidate_beam_idxs, cataA, cataC, rowAt, dCat, List.range_succ,
    List.getD]

/-- Witness for the C3 theorem at the concrete two-catalogue configuration
cataA (fixed), cataC (floating). -/
theorem find_next_pair_is_first_max_witness :
    ∃ bp pre post,
      find_next_pair sepDemo offsToDemo sqrtADemo [cataA, cataC]
        = some (some bp) ∧
      pair_items sepDemo offsToDemo sqrtADemo [cataA, cataC]
        = pre ++ (bp.fixed_beam_idx, bp.shift_beam_idx, bp.matchres)
            :: post ∧
      (∀ x ∈ pre, x.2.2.n < bp.matchres.n) ∧
      (∀ x ∈ pair_items sepDemo offsToDemo sqrtADemo [cataA, cataC],
        x.2.2.n ≤ bp.matchres.n) :=
  find_next_pair_is_first_max sepDemo offsToDemo sqrtADemo [cataA, cataC]
    (by simp [cataA]) (by rw [cand_idxs_AC]; simp)

/-- calculate_matches of the degenerate pair cataA, cataB: no source is
within the limit, so the match is empty and its offset statistics are
NaN. -/
lemma cm_AB :
    calculate_matches sepDemo offsToDemo sqrtADemo cataA cataB = matchAB := by
  norm_num [calculate_matches, search_around_sky, make_sky_coords, nfLe,
    sepDemo, nfMean, nfStd, cataA, cataB, rowAt, List.range_succ, matchAB]

/-- The fixed index list of the degenerate configuration. -/
lemma fixed_idxs_AB : fixed_beam_idxs [cataA, cataB] = [0] := by
  norm_num [fixed_beam_idxs, cataA, cataB, rowAt, dCat, List.range_succ,
    List.getD]

/-- The candidate index list of the degenerate configuration. -/
lemma cand_idxs_AB : candidate_beam_idxs [cataA, cataB] = [1] := by
  norm_num [candidate_beam_idxs, cataA, cataB, rowAt, dCat, List.range_succ,
    List.getD]

/-- The single pair visited by find_next_pair on the degenerate
configuration. -/
lemma pair_items_AB :
    pair_items sepDemo offsToDemo sqrtADemo [cataA, cataB]
      = [(0, 1, matchAB)] := by
  rw [pair_items, fixed_idxs_AB, cand_idxs_AB]
  simp [List.getD, cm_AB]

/-- find_next_pair on the degenerate configuration returns the zero-count
pair (0, 1). -/
lemma fnp_AB :
    find_next_pair sepDemo offsToDemo sqrtADemo [cataA, cataB]
      = some (some ⟨0, 1, matchAB⟩) := by
  rw [find_next_pair, pair_items_AB]
  rw [cand_idxs_AB]
  simp [cataA, updBest_none]

/-- Unfolding of one scheduler iteration from a successor step count. -/
lemma run_steps_succ (sepOf : NF × NF → NF × NF → NF)
    (offsTo : NF × NF → NF × NF → NF × NF)
    (offsBy : NF × NF → NF → NF → NF × NF) (sqrtA : ℚ → ℚ)
    (choice : ℕ → ℕ) (g : Bool) (n : ℕ) (s : RunState) :
    run_steps sepOf offsTo offsBy sqrtA choice g (n + 1) s
      = match perform_iterative_step sepOf offsTo offsBy sqrtA choice g s
          with
        | none => none
        | some s1 => run_steps sepOf offsTo offsBy sqrtA choice g n s1 :=
  rfl

/-- Applying the NaN mean offset to cataB floods its coordinates and its
cumulative offset with NaN. -/
lemma shifted_AB :
    add_offset_to_catalogue offsByDemo cataB (none, none)
      = { cataBShift with fixed := false } := by
  norm_num [add_offset_to_catalogue, add_offset_to_coords_skyframeoffset,
    make_sky_coords, offsByDemo, nfAdd, nfSub, cataB, cataBShift, rowAt,
    List.range_succ, List.getD, dRow, dPt]

/-- Jitter snapshot after the degenerate shift: the NaN catalogue matches
nothing. -/
lemma combos_two : combosList 2 = [(0, 1)] := by
  norm_num [combosList, List.range_succ]

set_option maxHeartbeats 1000000 in
lemma jit_AB1 :
    calculate_catalogue_jitter sepDemo [cataA, cataBShift] = stepInfoZero := by
  have hcombos : combosList ([cataA, cataBShift].length) = [(0, 1)] :=
    combos_two
  rw [calculate_catalogue_jitter, hcombos]
  norm_num [search_around_sky, make_sky_coords, nfLe, sepDemo, nfSum, nfAdd,
    cataA, cataBShift, rowAt, List.range_succ, List.getD, dCat, dPt,
    stepInfoZero]

/-- Step 1 of the degenerate run: the zero-count pair is applied, flooding
catalogue 1 with NaN and marking it fixed. -/
lemma step1_AB :
    perform_iterative_step sepDemo offsToDemo offsByDemo sqrtADemo choiceDemo
        true
        { cats := [cataA, cataB], stats := [], rng := 0, reseeds := 0 }
      = some
        { cats := [cataA, cataBShift], stats := [stepInfoZero],
          rng := 0, reseeds := 0 } := by
  have hupd : ({ add_offset_to_catalogue offsByDemo
      ([cataA, cataB].getD 1 dCat) (none, none) with fixed := true }
        : Catalogue) = cataBShift := by
    have hget : [cataA, cataB].getD 1 dCat = cataB := rfl
    rw [hget, shifted_AB]
    rfl
  rw [perform_iterative_step, fnp_AB]
  simp only [matchAB]
  rw [hupd]
  have hset : [cataA, cataB].set 1 cataBShift = [cataA, cataBShift] := rfl
  rw [hset, jit_AB1]
  simp

/-- find_next_pair after the degenerate shift: every catalogue is fixed, so
None is returned. -/
lemma fnp_AB2 :
    find_next_pair sepDemo offsToDemo sqrtADemo [cataA, cataBShift]
      = some none := by
  rw [find_next_pair]
  have hc : candidate_beam_idxs [cataA, cataBShift] = [] := by
    norm_num [candidate_beam_idxs, cataA, cataBShift, List.range_succ,
      List.getD, dCat]
  rw [hc]
  simp [cataA]

/-- Step 2 of the degenerate run: the exhausted frontier triggers a reseed,
which only rewrites fixed flags. -/
lemma step2_AB :
    perform_iterative_step sepDemo offsToDemo offsByDemo sqrtADemo choiceDemo
        true
        { cats := [cataA, cataBShift], stats := [stepInfoZero],
          rng := 0, reseeds := 0 }
      = some
        { cats := [cataA, cataBFinal], stats := [stepInfoZero],
          rng := 1, reseeds := 1 } := by
  have hres : reseed_initial_fixed_catalogue (choiceDemo 0)
      [cataA, cataBShift] = [cataA, cataBFinal] := rfl
  rw [perform_iterative_step, fnp_AB2]
  rw [hres]

/-- C1: on the degenerate two-catalogue configuration whose best pair has
zero matches, the scheduler does complete its K*passes steps without
raising, but instead of applying a zero offset it applies the NaN mean of
the empty match list: catalogue 1 ends with NaN coordinates and a NaN
cumulative offset, refuting the no-op-shift claim (its offset started as
(0, 0) and its position as ra 1000 arcsec). -/
theorem scheduler_nan_propagation_on_zero_count :
    perform_iterative_shifter sepDemo offsToDemo offsByDemo sqrtADemo
        choiceDemo [cataA, cataB] 1 true
      = some
        { cats := [cataA, cataBFinal], stats := [stepInfoZero],
          rng := 1, reseeds := 1 } ∧
    cataBFinal.offset = (none, none) ∧
    cataBFinal.table = [{ ra := none, dec := none, payload := 0 }] ∧
    cataB.offset = (some 0, some 0) ∧
    cataB.table = [{ ra := some 1000, dec := some 0, payload := 0 }] := by
  refine ⟨?_, rfl, rfl, rfl, rfl⟩
  show run_steps sepDemo offsToDemo offsByDemo sqrtADemo choiceDemo true
    (1 + 1) { cats := [cataA, cataB], stats := [], rng := 0, reseeds := 0 } = _
  rw [run_steps_succ, step1_AB]
  show run_steps sepDemo offsToDemo offsByDemo sqrtADemo choiceDemo true
    (0 + 1)
    { cats := [cataA, cataBShift], stats := [stepInfoZero],
      rng := 0, reseeds := 0 } = _
  rw [run_steps_succ, step2_AB]
  rfl

/-- The match count of calculate_matches is the length of the
search_around_sky pair list. -/
lemma calculate_matches_n (sepOf : NF × NF → NF × NF → NF)
    (offsTo : NF × NF → NF × NF → NF × NF) (sqrtA : ℚ → ℚ)
    (c1 c2 : Catalogue) (L : ℚ) :
    (calculate_matches sepOf offsTo sqrtA c1 c2 L).n
      = (search_around_sky sepOf (make_sky_coords c1.table)
          (make_sky_coords c2.table) L).length := by
  simp [calculate_matches]

/-- C9: a zero-count cross-match carries NaN offset statistics — the mean
and std are the NaN sentinel, never a usable numeric shift such as
(0, 0). -/
theorem zero_count_match_has_nan_statistics
    (sepOf : NF × NF → NF × NF → NF)
    (offsTo : NF × NF → NF × NF → NF × NF) (sqrtA : ℚ → ℚ)
    (c1 c2 : Catalogue) (L : ℚ)
    (h : (calculate_matches sepOf offsTo sqrtA c1 c2 L).n = 0) :
    (calculate_matches sepOf offsTo sqrtA c1 c2 L).offset_mean
        = (none, none) ∧
    (calculate_matches sepOf offsTo sqrtA c1 c2 L).offset_std
        = (none, none) ∧
    (calculate_matches sepOf offsTo sqrtA c1 c2 L).offset_mean
        ≠ (some 0, some 0) := by
  rw [calculate_matches_n] at h
  have hfound : search_around_sky sepOf (make_sky_coords c1.table)
      (make_sky_coords c2.table) L = [] := List.length_eq_zero.mp h
  refine ⟨?_, ?_, ?_⟩ <;>
    simp [calculate_matches, hfound, nfMean, nfStd]

/-- Witness for C9 at the degenerate pair cataA, cataB. -/
theorem zero_count_match_has_nan_statistics_witness :
    (calculate_matches sepDemo offsToDemo sqrtADemo cataA cataB 9).offset_mean
        = (none, none) ∧
    (calculate_matches sepDemo offsToDemo sqrtADemo cataA cataB 9).offset_std
        = (none, none) ∧
    (calculate_matches sepDemo offsToDemo sqrtADemo cataA cataB 9).offset_mean
        ≠ (some 0, some 0) :=
  zero_count_match_has_nan_statistics sepDemo offsToDemo sqrtADemo cataA
    cataB 9 (by rw [cm_AB]; rfl)

/-- Splitting a sum of pointwise sums of naturals. -/
lemma sum_map_add {α : Type} (l : List α) (f g : α → ℕ) :
    (l.map (fun x => f x + g x)).sum = (l.map f).sum + (l.map g).sum := by
  induction l with
  | nil => simp
  | cons x xs ih => simp [ih]; omega

/-- A sum of boolean indicators is a filter length. -/
lemma sum_map_indicator {α : Type} (l : List α) (p : α → Bool) :
    (l.map (fun x => if p x then 1 else 0)).sum = (l.filter p).length := by
  induction l with
  | nil => simp
  | cons x xs ih =>
      by_cases h : p x
      · simp [List.filter_cons, h, ih]
        omega
      · simp [List.filter_cons, h, ih]

/-- Exchanging the two summations of a double count over a rectangle of
list elements. -/
lemma sum_filter_swap {α β : Type} (l1 : List α) (l2 : List β)
    (p : α → β → Bool) :
    (l1.map (fun i => (l2.filter (fun j => p i j)).length)).sum
      = (l2.map (fun j => (l1.filter (fun i => p i j)).length)).sum := by
  induction l1 with
  | nil => simp
  | cons x xs ih =>
      simp only [List.map_cons, List.sum_cons]
      rw [ih, ← sum_map_indicator l2 (fun j => p x j), ← sum_map_add]
      congr 1
      apply List.map_congr_left
      intro j _
      rw [List.filter_cons]
      by_cases h : p x j
      · simp [h]
        omega
      · simp [h]

/-- The length of a search_around_sky result as a double count. -/
lemma search_around_sky_length (sepOf : NF × NF → NF × NF → NF)
    (a b : List (NF × NF)) (L : ℚ) :
    (search_around_sky sepOf a b L).length
      = ((List.range a.length).map
          (fun i => ((List.range b.length).filter
            (fun j => nfLe (sepOf (a.getD i dPt) (b.getD j dPt)) L)).length)
          ).sum := by
  rw [search_around_sky, List.length_flatMap]
  congr 1
  apply List.map_congr_left
  intro i _
  simp [Function.comp]

/-- Summing a function supported on a single index over a range. -/
lemma sum_single (c : ℕ) (i : ℕ) :
    ∀ n : ℕ, ((List.range n).map (fun k => if k = i then c else 0)).sum
      = if i < n then c else 0 := by
  intro n
  induction n with
  | zero => simp
  | succ k ih =>
      rw [List.range_succ, List.map_append, List.sum_append]
      simp only [List.map_cons, List.map_nil, List.sum_cons, List.sum_nil]
      rcases Nat.lt_trichotomy i k with h | h | h
      · rw [ih]
        simp [h, Nat.lt_succ_of_lt h]
        omega
      · rw [ih]
        simp [h, Nat.lt_irrefl]
      · rw [ih]
        have h1 : ¬i < k := by omega
        have h2 : ¬k = i := by omega
        have h3 : ¬i < k + 1 := by omega
        simp [h1, h2, h3]

/-- Counting a pair in a list of pairs sharing the same first component
reduces to counting the second component. -/
lemma count_map_mk (k j : ℕ) :
    ∀ l : List ℕ,
      ((l.map (fun j2 => (k, j2))).count ((k, j) : ℕ × ℕ)) = l.count j := by
  intro l
  induction l with
  | nil => simp
  | cons x xs ih =>
      simp only [List.map_cons, List.count_cons, ih]
      congr 1
      by_cases h : x = j
      · simp [h]
      · simp [h, beq_iff_eq]

/-- Multiplicity of an index pair in a search_around_sky result: one
exactly when both indices are in range and the separation is within the
limit, zero otherwise. -/
lemma count_search_around_sky (sepOf : NF × NF → NF × NF → NF)
    (a b : List (NF × NF)) (L : ℚ) (i j : ℕ) :
    (search_around_sky sepOf a b L).count (i, j)
      = if i < a.length ∧ j < b.length ∧
          nfLe (sepOf (a.getD i dPt) (b.getD j dPt)) L = true
        then 1 else 0 := by
  rw [search_around_sky, List.count_flatMap]
  have hblock : ∀ k : ℕ,
      ((((List.range b.length).filter
          (fun j2 => nfLe (sepOf (a.getD k dPt) (b.getD j2 dPt)) L)).map
        (fun j2 => (k, j2))).count (i, j))
      = if k = i then
          (if j < b.length ∧
              nfLe (sepOf (a.getD i dPt) (b.getD j dPt)) L = true
            then 1 else 0)
        else 0 := by
    intro k
    by_cases hk : k = i
    · subst hk
      rw [if_pos rfl]
      rw [count_map_mk]
      by_cases hcond : nfLe (sepOf (a.getD k dPt) (b.getD j dPt)) L = true
      · rw [@List.count_filter ℕ _ _
          (fun j2 => nfLe (sepOf (a.getD k dPt) (b.getD j2 dPt)) L) j
          (List.range b.length) hcond]
        by_cases hj : j < b.length
        · rw [List.count_eq_one_of_mem (List.nodup_range _)
            (List.mem_range.mpr hj)]
          exact (if_pos ⟨hj, hcond⟩).symm
        · rw [List.count_eq_zero.mpr (fun hmem => hj
            (List.mem_range.mp hmem))]
          exact (if_neg (fun hcon => hj hcon.1)).symm
      · have hnot : j ∉ (List.range b.length).filter
            (fun j2 => nfLe (sepOf (a.getD k dPt) (b.getD j2 dPt)) L) := by
          intro hmem
          exact hcond (List.mem_filter.mp hmem).2
        rw [List.count_eq_zero.mpr hnot]
        exact (if_neg (fun hcon => hcond hcon.2)).symm
    · rw [if_neg hk]
      apply List.count_eq_zero.mpr
      intro hmem
      obtain ⟨j2, _, hj2⟩ := List.mem_map.mp hmem
      exact hk (congrArg Prod.fst hj2)
  calc ((List.range a.length).map
          (List.count (i, j) ∘ fun k =>
            ((List.range b.length).filter
              (fun j2 => nfLe (sepOf (a.getD k dPt) (b.getD j2 dPt)) L)).map
              (fun j2 => (k, j2)))).sum
      = ((List.range a.length).map (fun k => if k = i then
          (if j < b.length ∧
              nfLe (sepOf (a.getD i dPt) (b.getD j dPt)) L = true
            then 1 else 0) else 0)).sum := by
        congr 1
        apply List.map_congr_left
        intro k _
        exact hblock k
    _ = _ := by
        rw [sum_single]
        by_cases hi : i < a.length
        · simp only [if_pos hi]
          by_cases hrest : j < b.length ∧
              nfLe (sepOf (a.getD i dPt) (b.getD j dPt)) L = true
          · rw [if_pos hrest, if_pos ⟨hi, hrest⟩]
          · rw [if_neg hrest, if_neg (fun hcon => hrest hcon.2)]
        · rw [if_neg hi, if_neg (fun hcon => hi hcon.1)]

/-- The index-pair list of calculate_matches is the search_around_sky
result. -/
lemma calculate_matches_indices (sepOf : NF × NF → NF × NF → NF)
    (offsTo : NF × NF → NF × NF → NF × NF) (sqrtA : ℚ → ℚ)
    (c1 c2 : Catalogue) (L : ℚ) :
    (calculate_matches sepOf offsTo sqrtA c1 c2 L).match_indices
      = search_around_sky sepOf (make_sky_coords c1.table)
          (make_sky_coords c2.table) L := by
  simp [calculate_matches]

/-- C7: cross-matching is symmetric in count for every symmetric
separation (astropy angular separations are symmetric), and pair
multiplicities are preserved under swapping the catalogue arguments. -/
theorem cross_match_count_symmetric (sepOf : NF × NF → NF × NF → NF)
    (offsTo : NF × NF → NF × NF → NF × NF) (sqrtA : ℚ → ℚ)
    (hsym : ∀ p q, sepOf p q = sepOf q p) (c1 c2 : Catalogue) (L : ℚ) :
    (calculate_matches sepOf offsTo sqrtA c1 c2 L).n
      = (calculate_matches sepOf offsTo sqrtA c2 c1 L).n ∧
    ∀ pr : ℕ × ℕ,
      (calculate_matches sepOf offsTo sqrtA c1 c2 L).match_indices.count pr
        = (calculate_matches sepOf offsTo sqrtA c2 c1 L).match_indices.count
            pr.swap := by
  constructor
  · rw [calculate_matches_n, calculate_matches_n,
      search_around_sky_length, search_around_sky_length,
      sum_filter_swap]
    congr 1
    apply List.map_congr_left
    intro j _
    congr 1
    apply List.filter_congr
    intro i _
    rw [hsym]
  · intro pr
    obtain ⟨i, j⟩ := pr
    rw [calculate_matches_indices, calculate_matches_indices]
    rw [count_search_around_sky, count_search_around_sky]
    simp only [Prod.swap_prod_mk]
    apply if_congr _ rfl rfl
    constructor
    · rintro ⟨h1, h2, h3⟩
      exact ⟨h2, h1, by rw [hsym]; exact h3⟩
    · rintro ⟨h1, h2, h3⟩
      exact ⟨h2, h1, by rw [hsym]; exact h3⟩

/-- The demo separation is symmetric, like the astropy angular
separation it stands in for. -/
lemma sepDemo_symm : ∀ p q, sepDemo p q = sepDemo q p := by
  rintro ⟨p1, p2⟩ ⟨q1, q2⟩
  cases p1 <;> cases p2 <;> cases q1 <;> cases q2 <;>
    simp [sepDemo, abs_sub_comm]

/-- Witness for C7 at the concrete pair cataA, cataC. -/
theorem cross_match_count_symmetric_witness :
    (calculate_matches sepDemo offsToDemo sqrtADemo cataA cataC 9).n
      = (calculate_matches sepDemo offsToDemo sqrtADemo cataC cataA 9).n ∧
    ∀ pr : ℕ × ℕ,
      (calculate_matches sepDemo offsToDemo sqrtADemo cataA cataC
        9).match_indices.count pr
        = (calculate_matches sepDemo offsToDemo sqrtADemo cataC cataA
            9).match_indices.count pr.swap :=
  cross_match_count_symmetric sepDemo offsToDemo sqrtADemo sepDemo_symm
    cataA cataC 9

/-- getD through a map at an in-range index. -/
lemma getD_map_cat (f : Catalogue → Catalogue) (l : List Catalogue) {i : ℕ}
    (hi : i < l.length) : (l.map f).getD i dCat = f (l.getD i dCat) := by
  rw [List.getD_eq_getElem?_getD, List.getElem?_map,
    List.getElem?_eq_getElem hi]
  rw [getD_eq l dCat hi]
  rfl

/-- A collection with a fixed catalogue reports it through List.any. -/
lemma any_fixed_of_countFixed {cats : List Catalogue}
    (h : 1 ≤ countFixed cats) : cats.any (fun c => c.fixed) = true := by
  unfold countFixed at h
  have hne : cats.filter (fun c => c.fixed) ≠ [] := by
    intro hnil
    rw [hnil] at h
    simp at h
  obtain ⟨c, hc⟩ := List.exists_mem_of_ne_nil _ hne
  obtain ⟨hmem, hfx⟩ := List.mem_filter.mp hc
  exact List.any_eq_true.mpr ⟨c, hmem, hfx⟩

/-- The candidate list is empty exactly when every catalogue is fixed. -/
lemma candidate_beam_idxs_eq_nil_iff (cats : List Catalogue) :
    candidate_beam_idxs cats = [] ↔ ∀ c ∈ cats, c.fixed = true := by
  unfold candidate_beam_idxs
  rw [List.filter_eq_nil_iff]
  constructor
  · intro h c hc
    obtain ⟨i, hi, hget⟩ := List.mem_iff_getElem.mp hc
    have := h i (List.mem_range.mpr hi)
    rw [getD_eq cats dCat hi, hget] at this
    simpa using this
  · intro h i hi
    have hi2 := List.mem_range.mp hi
    rw [getD_eq cats dCat hi2]
    simp [h _ (List.getElem_mem hi2)]

/-- A shift step of the scheduler: when a fixed and a floating catalogue
exist, the step succeeds, replaces exactly the chosen floating catalogue by
a fixed one, grows countFixed by one, leaves rng and reseeds alone, and
appends exactly one statistics entry when gathering is on (none when
off). -/
lemma perform_iterative_step_shift (sepOf : NF × NF → NF × NF → NF)
    (offsTo : NF × NF → NF × NF → NF × NF)
    (offsBy : NF × NF → NF → NF → NF × NF) (sqrtA : ℚ → ℚ)
    (choice : ℕ → ℕ) (g : Bool) (s : RunState)
    (hfix : s.cats.any (fun c => c.fixed) = true)
    (hcand : candidate_beam_idxs s.cats ≠ []) :
    ∃ j s1, j < s.cats.length ∧ (s.cats.getD j dCat).fixed = false ∧
      perform_iterative_step sepOf offsTo offsBy sqrtA choice g s
        = some s1 ∧
      s1.cats.length = s.cats.length ∧
      (∀ i, i ≠ j → s1.cats.getD i dCat = s.cats.getD i dCat) ∧
      (s1.cats.getD j dCat).fixed = true ∧
      countFixed s1.cats = countFixed s.cats + 1 ∧
      s1.rng = s.rng ∧ s1.reseeds = s.reseeds ∧
      (g = true →
        s1.stats = s.stats ++ [calculate_catalogue_jitter sepOf s1.cats]) ∧
      (g = false → s1.stats = s.stats) := by
  have hcand_len : (candidate_beam_idxs s.cats).length ≠ 0 := by
    intro h
    exact hcand (List.length_eq_zero.mp h)
  obtain ⟨bp, pre, post, hfnp, hsplit, _, _⟩ :=
    find_next_pair_spec sepOf offsTo sqrtA s.cats hfix hcand_len
  have hmem : (bp.fixed_beam_idx, bp.shift_beam_idx, bp.matchres)
      ∈ pair_items sepOf offsTo sqrtA s.cats := by
    rw [hsplit]
    exact List.mem_append_right _ (List.mem_cons_self _ _)
  obtain ⟨_, hcmem, _⟩ := mem_pair_items hmem
  obtain ⟨hlt, hfloat⟩ := mem_candidate_beam_idxs hcmem
  set newcat : Catalogue := { add_offset_to_catalogue offsBy (s.cats.getD bp.shift_beam_idx dCat) bp.matchres.offset_mean with fixed := true } with hnewcat
  set cats1 := s.cats.set bp.shift_beam_idx newcat with hcats1
  set stats1 := if g then s.stats ++ [calculate_catalogue_jitter sepOf cats1] else s.stats with hstats1
  set s1 : RunState := { s with cats := cats1, stats := stats1 } with hs1
  refine ⟨bp.shift_beam_idx, s1, hlt, hfloat, ?_, ?_, ?_, ?_, ?_, rfl, rfl, ?_, ?_⟩
  · rw [perform_iterative_step, hfnp]
  · show cats1.length = s.cats.length
    rw [hcats1, List.length_set]
  · intro i hne
    show cats1.getD i dCat = s.cats.getD i dCat
    rw [hcats1]
    exact getD_set_ne s.cats newcat dCat (fun h => hne h.symm)
  · show (cats1.getD bp.shift_beam_idx dCat).fixed = true
    rw [hcats1, getD_set_self s.cats newcat dCat hlt]
  · show countFixed cats1 = countFixed s.cats + 1
    rw [hcats1]
    exact countFixed_set_succ s.cats bp.shift_beam_idx newcat hlt hfloat rfl
  · intro hg
    show stats1 = s.stats ++ [calculate_catalogue_jitter sepOf cats1]
    rw [hstats1, if_pos hg]
  · intro hg
    show stats1 = s.stats
    rw [hstats1, if_neg (by simp [hg])]

/-- A reseed step of the scheduler: when every catalogue is fixed (and at
least one exists), the step succeeds, changes no table and no offset,
resets the fixed set to exactly one catalogue, consumes one random draw,
counts one reseed, and records no statistics. -/
lemma perform_iterative_step_reseed (sepOf : NF × NF → NF × NF → NF)
    (offsTo : NF × NF → NF × NF → NF × NF)
    (offsBy : NF × NF → NF → NF → NF × NF) (sqrtA : ℚ → ℚ)
    (choice : ℕ → ℕ) (g : Bool) (s : RunState)
    (hne : 0 < s.cats.length)
    (hall : ∀ c ∈ s.cats, c.fixed = true)
    (hch : choice s.rng < s.cats.length) :
    ∃ s1, perform_iterative_step sepOf offsTo offsBy sqrtA choice g s
        = some s1 ∧
      s1.cats.length = s.cats.length ∧
      (∀ i, (s1.cats.getD i dCat).table = (s.cats.getD i dCat).table) ∧
      (∀ i, (s1.cats.getD i dCat).offset = (s.cats.getD i dCat).offset) ∧
      countFixed s1.cats = 1 ∧
      s1.stats = s.stats ∧ s1.rng = s.rng + 1 ∧
      s1.reseeds = s.reseeds + 1 := by
  have hfix : s.cats.any (fun c => c.fixed) = true := by
    obtain ⟨c, hc⟩ := List.exists_mem_of_ne_nil s.cats
      (by intro h; rw [h] at hne; simp at hne)
    exact List.any_eq_true.mpr ⟨c, hc, hall c hc⟩
  have hcand : candidate_beam_idxs s.cats = [] :=
    (candidate_beam_idxs_eq_nil_iff s.cats).mpr hall
  have hfnp : find_next_pair sepOf offsTo sqrtA s.cats = some none := by
    rw [find_next_pair, hfix]
    simp only [Bool.not_true, Bool.false_eq_true, if_false]
    rw [if_pos (by rw [hcand]; rfl)]
  set k := choice s.rng with hk
  set cleared := s.cats.map (fun c => { c with fixed := false })
    with hcleared
  have hclen : cleared.length = s.cats.length := by simp [hcleared]
  have hclear_all : ∀ c ∈ cleared, c.fixed = false := by
    intro c hc
    obtain ⟨c0, _, hc0⟩ := List.mem_map.mp hc
    rw [← hc0]
  have hget_cleared : ∀ i, i < s.cats.length →
      cleared.getD i dCat = { s.cats.getD i dCat with fixed := false } := by
    intro i hi
    rw [hcleared]
    exact getD_map_cat _ s.cats hi
  set s1 : RunState := { s with cats := reseed_initial_fixed_catalogue k s.cats, rng := s.rng + 1, reseeds := s.reseeds + 1 } with hs1
  have hre : reseed_initial_fixed_catalogue k s.cats
      = cleared.set k { cleared.getD k dCat with fixed := true } := rfl
  refine ⟨s1, ?_, ?_, ?_, ?_, ?_, rfl, rfl, rfl⟩
  · rw [perform_iterative_step, hfnp]
  · show (reseed_initial_fixed_catalogue k s.cats).length = s.cats.length
    rw [hre, List.length_set, hclen]
  · intro i
    show ((reseed_initial_fixed_catalogue k s.cats).getD i dCat).table = _
    rw [hre]
    by_cases hik : i = k
    · rw [hik]
      rw [getD_set_self cleared _ dCat (by rw [hclen]; exact hch)]
      rw [hget_cleared k hch]
    · rw [getD_set_ne cleared _ dCat (fun h => hik h.symm)]
      by_cases hi : i < s.cats.length
      · rw [hget_cleared i hi]
      · rw [List.getD_eq_default _ _ (by rw [hclen]; omega),
          List.getD_eq_default _ _ (by omega)]
  · intro i
    show ((reseed_initial_fixed_catalogue k s.cats).getD i dCat).offset = _
    rw [hre]
    by_cases hik : i = k
    · rw [hik]
      rw [getD_set_self cleared _ dCat (by rw [hclen]; exact hch)]
      rw [hget_cleared k hch]
    · rw [getD_set_ne cleared _ dCat (fun h => hik h.symm)]
      by_cases hi : i < s.cats.length
      · rw [hget_cleared i hi]
      · rw [List.getD_eq_default _ _ (by rw [hclen]; omega),
          List.getD_eq_default _ _ (by omega)]
  · show countFixed (reseed_initial_fixed_catalogue k s.cats) = 1
    rw [hre]
    exact countFixed_set_one cleared k _ hclear_all
      (by rw [hclen]; exact hch) rfl

/-- countFixed never exceeds the number of catalogues. -/
lemma countFixed_le_length (cats : List Catalogue) :
    countFixed cats ≤ cats.length :=
  List.length_filter_le _ _

/-- Scheduler run invariant: from a state with at least one fixed
catalogue and in-range random draws, any number of steps completes, the
catalogue count and the at-least-one-fixed property are preserved, and
with statistics on, every step contributes exactly one statistics entry or
one reseed. -/
lemma run_steps_inv (sepOf : NF × NF → NF × NF → NF)
    (offsTo : NF × NF → NF × NF → NF × NF)
    (offsBy : NF × NF → NF → NF → NF × NF) (sqrtA : ℚ → ℚ)
    (choice : ℕ → ℕ) (g : Bool) (K : ℕ) (hch : ∀ t, choice t < K) :
    ∀ (n : ℕ) (s : RunState), s.cats.length = K → 1 ≤ countFixed s.cats →
      ∃ s1, run_steps sepOf offsTo offsBy sqrtA choice g n s = some s1 ∧
        s1.cats.length = K ∧ 1 ≤ countFixed s1.cats ∧
        (g = true →
          s1.stats.length + s1.reseeds = s.stats.length + s.reseeds + n) := by
  intro n
  induction n with
  | zero =>
      intro s hlen hcf
      exact ⟨s, rfl, hlen, hcf, fun _ => by omega⟩
  | succ m ih =>
      intro s hlen hcf
      have hfix : s.cats.any (fun c => c.fixed) = true :=
        any_fixed_of_countFixed hcf
      by_cases hall : ∀ c ∈ s.cats, c.fixed = true
      · have hpos : 0 < s.cats.length := by
          have := countFixed_le_length s.cats
          omega
        obtain ⟨s1, hstep, hlen1, _, _, hcf1, hstats1, _, hres1⟩ :=
          perform_iterative_step_reseed sepOf offsTo offsBy sqrtA choice g
            s hpos hall (by rw [hlen]; exact hch s.rng)
        obtain ⟨s2, hrun, hlen2, hcf2, hcount2⟩ :=
          ih s1 (by rw [hlen1, hlen]) (by omega)
        refine ⟨s2, ?_, hlen2, hcf2, ?_⟩
        · rw [run_steps_succ, hstep]
          exact hrun
        · intro hg
          have := hcount2 hg
          rw [hstats1, hres1] at this
          omega
      · have hcand : candidate_beam_idxs s.cats ≠ [] := by
          intro h
          exact hall ((candidate_beam_idxs_eq_nil_iff s.cats).mp h)
        obtain ⟨j, s1, _, _, hstep, hlen1, _, _, hcf1, hrng1, hres1,
            hstats_t, hstats_f⟩ :=
          perform_iterative_step_shift sepOf offsTo offsBy sqrtA choice g
            s hfix hcand
        obtain ⟨s2, hrun, hlen2, hcf2, hcount2⟩ :=
          ih s1 (by rw [hlen1, hlen]) (by omega)
        refine ⟨s2, ?_, hlen2, hcf2, ?_⟩
        · rw [run_steps_succ, hstep]
          exact hrun
        · intro hg
          have h2 := hcount2 hg
          have h3 := hstats_t hg
          rw [h3, hres1] at h2
          simp [List.length_append] at h2
          omega

/-- C4: started from a seeded collection of K >= 1 catalogues with
passes >= 1, the scheduler executes exactly K * passes loop iterations and
completes them all without raising (the loop bound is structural:
perform_iterative_shifter is run_steps applied to exactly
cats.length * passes); and any step on which no floating catalogue remains
is consumed by a reseed that changes no table and no offset and records no
statistics. -/
theorem scheduler_executes_k_passes_steps (sepOf : NF × NF → NF × NF → NF)
    (offsTo : NF × NF → NF × NF → NF × NF)
    (offsBy : NF × NF → NF → NF → NF × NF) (sqrtA : ℚ → ℚ)
    (choice : ℕ → ℕ) (cats : List Catalogue) (passes : ℕ) (g : Bool)
    (hK : 1 ≤ cats.length) (_hp : 1 ≤ passes)
    (hseed : 1 ≤ countFixed cats) (hch : ∀ t, choice t < cats.length) :
    (∃ s1, perform_iterative_shifter sepOf offsTo offsBy sqrtA choice cats
        passes g = some s1) ∧
    (∀ s : RunState, s.cats.length = cats.length →
      (∀ c ∈ s.cats, c.fixed = true) →
      ∃ s1, perform_iterative_step sepOf offsTo offsBy sqrtA choice g s
          = some s1 ∧
        s1.reseeds = s.reseeds + 1 ∧ s1.stats = s.stats ∧
        (∀ i, (s1.cats.getD i dCat).table = (s.cats.getD i dCat).table) ∧
        (∀ i, (s1.cats.getD i dCat).offset
          = (s.cats.getD i dCat).offset)) := by
  constructor
  · obtain ⟨s1, hrun, _, _, _⟩ :=
      run_steps_inv sepOf offsTo offsBy sqrtA choice g cats.length hch
        (cats.length * passes)
        { cats := cats, stats := [], rng := 0, reseeds := 0 } rfl hseed
    exact ⟨s1, hrun⟩
  · intro s hlen hall
    obtain ⟨s1, hstep, _, htab, hoff, _, hstats, _, hres⟩ :=
      perform_iterative_step_reseed sepOf offsTo offsBy sqrtA choice g s
        (by omega) hall (by rw [hlen]; exact hch s.rng)
    exact ⟨s1, hstep, hres, hstats, htab, hoff⟩

/-- Witness for C4 at the concrete seeded configuration cataA (fixed),
cataC (floating), one pass, statistics on. -/
theorem scheduler_executes_k_passes_steps_witness :
    (∃ s1, perform_iterative_shifter sepDemo offsToDemo offsByDemo
        sqrtADemo choiceDemo [cataA, cataC] 1 true = some s1) ∧
    (∀ s : RunState, s.cats.length = [cataA, cataC].length →
      (∀ c ∈ s.cats, c.fixed = true) →
      ∃ s1, perform_iterative_step sepDemo offsToDemo offsByDemo sqrtADemo
          choiceDemo true s = some s1 ∧
        s1.reseeds = s.reseeds + 1 ∧ s1.stats = s.stats ∧
        (∀ i, (s1.cats.getD i dCat).table = (s.cats.getD i dCat).table) ∧
        (∀ i, (s1.cats.getD i dCat).offset
          = (s.cats.getD i dCat).offset)) :=
  scheduler_executes_k_passes_steps sepDemo offsToDemo offsByDemo sqrtADemo
    choiceDemo [cataA, cataC] 1 true (by simp) (by omega)
    (by norm_num [countFixed, cataA, cataC, rowAt])
    (by intro t; simp [choiceDemo])

/-- C5: throughout a run started from a collection with exactly one fixed
catalogue, exactly one catalogue is fixed when the first step begins; every
step from a reachable state with a floating catalogue left fixes exactly
the shifted catalogue and leaves every other catalogue untouched; and every
step from a reachable state with no floating catalogue resets the fixed set
to exactly one catalogue. -/
theorem scheduler_fixed_flag_invariant (sepOf : NF × NF → NF × NF → NF)
    (offsTo : NF × NF → NF × NF → NF × NF)
    (offsBy : NF × NF → NF → NF → NF × NF) (sqrtA : ℚ → ℚ)
    (choice : ℕ → ℕ) (cats : List Catalogue) (g : Bool)
    (hseed : countFixed cats = 1) (hch : ∀ t, choice t < cats.length) :
    countFixed cats = 1 ∧
    ∀ (t : ℕ) (s : RunState),
      run_steps sepOf offsTo offsBy sqrtA choice g t
        { cats := cats, stats := [], rng := 0, reseeds := 0 } = some s →
      ∃ s1, perform_iterative_step sepOf offsTo offsBy sqrtA choice g s
          = some s1 ∧
        ((¬ ∀ c ∈ s.cats, c.fixed = true) →
          ∃ j, j < s.cats.length ∧ (s.cats.getD j dCat).fixed = false ∧
            (s1.cats.getD j dCat).fixed = true ∧
            ∀ i, i ≠ j → s1.cats.getD i dCat = s.cats.getD i dCat) ∧
        ((∀ c ∈ s.cats, c.fixed = true) → countFixed s1.cats = 1) := by
  refine ⟨hseed, ?_⟩
  intro t s hrun
  obtain ⟨s', hrun', hlen', hcf', _⟩ :=
    run_steps_inv sepOf offsTo offsBy sqrtA choice g cats.length hch t
      { cats := cats, stats := [], rng := 0, reseeds := 0 } rfl
      (by show 1 ≤ countFixed cats; omega)
  rw [hrun] at hrun'
  obtain rfl : s = s' := by
    injection hrun'
  by_cases hall : ∀ c ∈ s.cats, c.fixed = true
  · have hpos : 0 < s.cats.length := by
      have := countFixed_le_length s.cats
      omega
    obtain ⟨s1, hstep, _, _, _, hcf1, _, _, _⟩ :=
      perform_iterative_step_reseed sepOf offsTo offsBy sqrtA choice g s
        hpos hall (by rw [hlen']; exact hch s.rng)
    exact ⟨s1, hstep, fun hcon => absurd hall hcon, fun _ => hcf1⟩
  · have hcand : candidate_beam_idxs s.cats ≠ [] := by
      intro h
      exact hall ((candidate_beam_idxs_eq_nil_iff s.cats).mp h)
    obtain ⟨j, s1, hjlt, hjfloat, hstep, _, hothers, hjfixed, _, _, _, _, _⟩ :=
      perform_iterative_step_shift sepOf offsTo offsBy sqrtA choice g s
        (any_fixed_of_countFixed hcf') hcand
    exact ⟨s1, hstep,
      fun _ => ⟨j, hjlt, hjfloat, hjfixed, hothers⟩,
      fun hcon => absurd hcon hall⟩

/-- Witness for C5 at the concrete seeded configuration cataA (fixed),
cataC (floating). -/
theorem scheduler_fixed_flag_invariant_witness :
    countFixed [cataA, cataC] = 1 ∧
    ∀ (t : ℕ) (s : RunState),
      run_steps sepDemo offsToDemo offsByDemo sqrtADemo choiceDemo true t
        { cats := [cataA, cataC], stats := [], rng := 0, reseeds := 0 }
        = some s →
      ∃ s1, perform_iterative_step sepDemo offsToDemo offsByDemo sqrtADemo
          choiceDemo true s = some s1 ∧
        ((¬ ∀ c ∈ s.cats, c.fixed = true) →
          ∃ j, j < s.cats.length ∧ (s.cats.getD j dCat).fixed = false ∧
            (s1.cats.getD j dCat).fixed = true ∧
            ∀ i, i ≠ j → s1.cats.getD i dCat = s.cats.getD i dCat) ∧
        ((∀ c ∈ s.cats, c.fixed = true) → countFixed s1.cats = 1) :=
  scheduler_fixed_flag_invariant sepDemo offsToDemo offsByDemo sqrtADemo
    choiceDemo [cataA, cataC] true
    (by norm_num [countFixed, cataA, cataC, rowAt])
    (by intro t; simp [choiceDemo])

/-- C6 (amended): with statistics on, one StepInfo entry is recorded per
shift step and none per reseed step, so the recorded sequence length plus
the number of reseed steps equals the executed step count K * passes; it
falls short of K * passes exactly by the reseed steps. -/
theorem stats_one_entry_per_shift_step (sepOf : NF × NF → NF × NF → NF)
    (offsTo : NF × NF → NF × NF → NF × NF)
    (offsBy : NF × NF → NF → NF → NF × NF) (sqrtA : ℚ → ℚ)
    (choice : ℕ → ℕ) (cats : List Catalogue) (passes : ℕ)
    (hseed : 1 ≤ countFixed cats) (hch : ∀ t, choice t < cats.length) :
    ∃ s1, perform_iterative_shifter sepOf offsTo offsBy sqrtA choice cats
        passes true = some s1 ∧
      s1.stats.length + s1.reseeds = cats.length * passes := by
  obtain ⟨s1, hrun, _, _, hcount⟩ :=
    run_steps_inv sepOf offsTo offsBy sqrtA choice true cats.length hch
      (cats.length * passes)
      { cats := cats, stats := [], rng := 0, reseeds := 0 } rfl hseed
  refine ⟨s1, hrun, ?_⟩
  have := hcount rfl
  simpa using this

/-- Witness for the amended C6 theorem at the concrete seeded
configuration cataA (fixed), cataC (floating), one pass. -/
theorem stats_one_entry_per_shift_step_witness :
    ∃ s1, perform_iterative_shifter sepDemo offsToDemo offsByDemo sqrtADemo
        choiceDemo [cataA, cataC] 1 true = some s1 ∧
      s1.stats.length + s1.reseeds = [cataA, cataC].length * 1 :=
  stats_one_entry_per_shift_step sepDemo offsToDemo offsByDemo sqrtADemo
    choiceDemo [cataA, cataC] 1
    (by norm_num [countFixed, cataA, cataC, rowAt])
    (by intro t; simp [choiceDemo])

/-- C6 counterexample: a single fixed catalogue with one pass executes
exactly one step, which is a reseed; no statistics entry is recorded, so
the statistics sequence has length 0 rather than one entry per executed
step (K * passes = 1). -/
theorem stats_skip_reseed_steps_counterexample :
    (perform_iterative_shifter sepDemo offsToDemo offsByDemo sqrtADemo
        choiceDemo [cataA] 1 true).map (fun s => s.stats.length)
      = some 0 ∧
    [cataA].length * 1 = 1 := ⟨rfl, rfl⟩

/-- First hop of the round-trip counterexample: from the equatorial point
(1, 0, 0), shifting by (+90 deg, +45 deg) expressed in arcseconds lands at
the Cartesian point (0, -sqrt 2 / 2, -sqrt 2 / 2). -/
lemma round_trip_hop1 :
    add_offset_to_coords_model ⟨1, 0, 0⟩ 324000 162000
      = ⟨0, -(Real.sqrt 2 / 2), -(Real.sqrt 2 / 2)⟩ := by
  have h1 : arcsec_to_rad ((0 : ℝ) - 324000) = -(Real.pi / 2) := by
    unfold arcsec_to_rad
    ring
  have h2 : arcsec_to_rad ((0 : ℝ) - 162000) = -(Real.pi / 4) := by
    unfold arcsec_to_rad
    ring
  unfold add_offset_to_coords_model spherical_offsets_by eastAt northAt
  rw [h1, h2]
  simp only [Real.cos_neg, Real.sin_neg, Real.cos_pi_div_two,
    Real.sin_pi_div_two, Real.cos_pi_div_four, Real.sin_pi_div_four]
  norm_num [Real.sqrt_one]

/-- Second hop of the round-trip counterexample: shifting the intermediate
point back by (-90 deg, -45 deg) does not return to (1, 0, 0) but to a
point at declination -30 degrees. -/
lemma round_trip_hop2 :
    add_offset_to_coords_model ⟨0, -(Real.sqrt 2 / 2), -(Real.sqrt 2 / 2)⟩
        (-324000) (-162000)
      = ⟨Real.sqrt 2 / 2, -(1 / 2), 1 / 2⟩ := by
  have h1 : arcsec_to_rad ((0 : ℝ) - -324000) = Real.pi / 2 := by
    unfold arcsec_to_rad
    ring
  have h2 : arcsec_to_rad ((0 : ℝ) - -162000) = Real.pi / 4 := by
    unfold arcsec_to_rad
    ring
  have hs2 : Real.sqrt 2 * Real.sqrt 2 = 2 :=
    Real.mul_self_sqrt (by norm_num)
  have hspos : (0 : ℝ) < Real.sqrt 2 := Real.sqrt_pos.mpr (by norm_num)
  have hhalf : Real.sqrt ((0 : ℝ) ^ 2 + (-(Real.sqrt 2 / 2)) ^ 2)
      = Real.sqrt 2 / 2 := by
    have h : ((0 : ℝ) ^ 2 + (-(Real.sqrt 2 / 2)) ^ 2)
        = (Real.sqrt 2 / 2) ^ 2 := by ring
    rw [h, Real.sqrt_sq (by positivity)]
  unfold add_offset_to_coords_model spherical_offsets_by eastAt northAt
  rw [h1, h2]
  simp only [Real.cos_pi_div_two, Real.sin_pi_div_two,
    Real.cos_pi_div_four, Real.sin_pi_div_four]
  rw [hhalf]
  have hne : Real.sqrt 2 / 2 ≠ 0 := by positivity
  refine congrArg₂ (fun a b => (⟨a, b.1, b.2⟩ : Vec3)) ?_
    (congrArg₂ Prod.mk ?_ ?_) <;>
    (field_simp; try ring)

/-- C8 counterexample: shifting the point set consisting of the equatorial
point (1, 0, 0) by offset (+324000, +162000) arcseconds (i.e. +90 and +45
degrees) and then by the negated offset does not return the point to its
original position: the round-tripped point sits at declination -30
degrees, a discrepancy far beyond any floating-point tolerance. -/
theorem spherical_round_trip_counterexample :
    (add_offset_to_coords_model
        (add_offset_to_coords_model ⟨1, 0, 0⟩ 324000 162000)
        (-324000) (-162000)).z = 1 / 2 ∧
    (Vec3.mk 1 0 0).z = 0 ∧
    add_offset_to_coords_model
        (add_offset_to_coords_model ⟨1, 0, 0⟩ 324000 162000)
        (-324000) (-162000)
      ≠ Vec3.mk 1 0 0 := by
  rw [round_trip_hop1, round_trip_hop2]
  refine ⟨rfl, rfl, ?_⟩
  intro h
  have hz := congrArg Vec3.z h
  norm_num at hz

/-- C8 (amended): the round trip is exact when the offset is purely in
declination (d_ra = 0): shifting any off-pole position by (0, +d_dec) and
then by (0, -d_dec) returns it exactly, provided the first hop does not
cross a pole (the rotated colatitude stays positive). -/
theorem spherical_round_trip_pure_dec (p : Vec3) (d : ℝ)
    (hr : 0 < Real.sqrt (p.x ^ 2 + p.y ^ 2))
    (hR : 0 < Real.sqrt (p.x ^ 2 + p.y ^ 2) * Real.cos (arcsec_to_rad d)
      + p.z * Real.sin (arcsec_to_rad d)) :
    add_offset_to_coords_model (add_offset_to_coords_model p 0 d) 0 (-d)
      = p := by
  set t := arcsec_to_rad d with ht
  set r := Real.sqrt (p.x ^ 2 + p.y ^ 2) with hrdef
  set R := r * Real.cos t + p.z * Real.sin t with hRdef
  have hr2 : r ^ 2 = p.x ^ 2 + p.y ^ 2 := Real.sq_sqrt (by positivity)
  have hrne : r ≠ 0 := ne_of_gt hr
  have hRne : R ≠ 0 := ne_of_gt hR
  have h00 : arcsec_to_rad ((0 : ℝ) - 0) = 0 := by
    unfold arcsec_to_rad
    ring
  have h0d : arcsec_to_rad ((0 : ℝ) - d) = -t := by
    rw [ht]
    unfold arcsec_to_rad
    ring
  have h0d2 : arcsec_to_rad ((0 : ℝ) - -d) = t := by
    rw [ht]
    unfold arcsec_to_rad
    ring
  have hsc : Real.sin t ^ 2 + Real.cos t ^ 2 = 1 := Real.sin_sq_add_cos_sq t
  have hq : add_offset_to_coords_model p 0 d
      = ⟨p.x * R / r, p.y * R / r,
          p.z * Real.cos t - r * Real.sin t⟩ := by
    unfold add_offset_to_coords_model spherical_offsets_by eastAt northAt
    rw [h00, h0d, ← hrdef]
    simp only [Real.cos_neg, Real.sin_neg, Real.cos_zero, Real.sin_zero]
    refine congrArg₂ (fun a b => (⟨a, b.1, b.2⟩ : Vec3)) ?_
      (congrArg₂ Prod.mk ?_ ?_)
    · rw [hRdef]
      field_simp
      ring
    · rw [hRdef]
      field_simp
      ring
    · ring
  have hq2 : Real.sqrt ((p.x * R / r) ^ 2 + (p.y * R / r) ^ 2) = R := by
    have hxy : (p.x * R / r) ^ 2 + (p.y * R / r) ^ 2 = R ^ 2 := by
      have h : (p.x * R / r) ^ 2 + (p.y * R / r) ^ 2
          = (p.x ^ 2 + p.y ^ 2) * (R / r) ^ 2 := by ring
      rw [h, ← hr2]
      field_simp
    rw [hxy, Real.sqrt_sq (le_of_lt hR)]
  have key1 : R * Real.cos t
      - (p.z * Real.cos t - r * Real.sin t) * Real.sin t = r := by
    rw [hRdef]
    linear_combination r * hsc
  have key2 : Real.cos t * (p.z * Real.cos t - r * Real.sin t)
      + Real.sin t * R = p.z := by
    rw [hRdef]
    linear_combination p.z * hsc
  rw [hq]
  unfold add_offset_to_coords_model spherical_offsets_by eastAt northAt
  rw [h00, h0d2]
  simp only [Real.cos_zero, Real.sin_zero]
  rw [hq2]
  refine congrArg₂ (fun a b => (⟨a, b.1, b.2⟩ : Vec3)) ?_
    (congrArg₂ Prod.mk ?_ ?_)
  · field_simp
    linear_combination (p.x * R) * key1
      + (p.x * r * (r * Real.cos t + p.z * Real.sin t) * (r - 1)) * hsc
  · field_simp
    linear_combination (p.y * R) * key1
      + (p.y * r * (r * Real.cos t + p.z * Real.sin t) * (r - 1)) * hsc
  · field_simp
    linear_combination key2

/-- Witness for the amended C8 theorem: a pure-declination round trip of
45 degrees (162000 arcsec) from the equatorial point (1, 0, 0) is
exact. -/
theorem spherical_round_trip_pure_dec_witness :
    add_offset_to_coords_model
        (add_offset_to_coords_model ⟨1, 0, 0⟩ 0 162000) 0 (-162000)
      = (⟨1, 0, 0⟩ : Vec3) :=
  spherical_round_trip_pure_dec ⟨1, 0, 0⟩ 162000
    (by norm_num [Real.sqrt_one])
    (by
      have ha : arcsec_to_rad 162000 = Real.pi / 4 := by
        unfold arcsec_to_rad
        ring
      show (0 : ℝ) < Real.sqrt ((1 : ℝ) ^ 2 + (0 : ℝ) ^ 2)
        * Real.cos (arcsec_to_rad 162000)
        + (0 : ℝ) * Real.sin (arcsec_to_rad 162000)
      rw [ha, Real.cos_pi_div_four]
      have h1 : Real.sqrt ((1 : ℝ) ^ 2 + (0 : ℝ) ^ 2) = 1 := by
        norm_num [Real.sqrt_one]
      rw [h1]
      norm_num)

/-- C10: add_offset_to_catalogue leaves its input object untouched (every
write in the source goes to the table copy or to the deep copy) and the
returned catalogue keeps the beam, path, center and fixed flag of the
input, accumulates the applied offset field-wise onto the prior offset, and
differs in its table only by the shifted ra and dec columns: same length,
same payload per row, ra and dec replaced by the spherical shift of the
original coordinates by the negated offset. -/
theorem add_offset_to_catalogue_frame (offsBy : NF × NF → NF → NF → NF × NF)
    (c : Catalogue) (off : NF × NF) :
    (add_offset_to_catalogue_eff offsBy c off).1 = c ∧
    (add_offset_to_catalogue_eff offsBy c off).2.beam = c.beam ∧
    (add_offset_to_catalogue_eff offsBy c off).2.path = c.path ∧
    (add_offset_to_catalogue_eff offsBy c off).2.center = c.center ∧
    (add_offset_to_catalogue_eff offsBy c off).2.fixed = c.fixed ∧
    (add_offset_to_catalogue_eff offsBy c off).2.offset
      = (nfAdd off.1 c.offset.1, nfAdd off.2 c.offset.2) ∧
    (add_offset_to_catalogue_eff offsBy c off).2.table.length
      = c.table.length ∧
    ∀ i, i < c.table.length →
      (((add_offset_to_catalogue_eff offsBy c off).2.table.getD i
          dRow).payload = (c.table.getD i dRow).payload ∧
        ((add_offset_to_catalogue_eff offsBy c off).2.table.getD i
          dRow).ra
          = (offsBy ((c.table.getD i dRow).ra, (c.table.getD i dRow).dec)
              (nfSub (some 0) off.1) (nfSub (some 0) off.2)).1 ∧
        ((add_offset_to_catalogue_eff offsBy c off).2.table.getD i
          dRow).dec
          = (offsBy ((c.table.getD i dRow).ra, (c.table.getD i dRow).dec)
              (nfSub (some 0) off.1) (nfSub (some 0) off.2)).2) := by
  refine ⟨rfl, rfl, rfl, rfl, rfl, rfl, ?_, ?_⟩
  · simp [add_offset_to_catalogue_eff, add_offset_to_catalogue]
  · intro i hi
    refine ⟨?_, ?_, ?_⟩ <;>
      simp [add_offset_to_catalogue_eff, add_offset_to_catalogue,
        add_offset_to_coords_skyframeoffset, make_sky_coords,
        List.getD_eq_getElem?_getD, List.getElem?_map, List.getElem?_range,
        hi, List.getElem?_eq_getElem]

/-- Witness for C10 at a concrete catalogue and offset. -/
theorem add_offset_to_catalogue_frame_witness :
    (add_offset_to_catalogue_eff offsByDemo cataC (some 1, some 2)).1
        = cataC ∧
    (add_offset_to_catalogue_eff offsByDemo cataC
        (some 1, some 2)).2.beam = cataC.beam ∧
    (add_offset_to_catalogue_eff offsByDemo cataC
        (some 1, some 2)).2.path = cataC.path ∧
    (add_offset_to_catalogue_eff offsByDemo cataC
        (some 1, some 2)).2.center = cataC.center ∧
    (add_offset_to_catalogue_eff offsByDemo cataC
        (some 1, some 2)).2.fixed = cataC.fixed ∧
    (add_offset_to_catalogue_eff offsByDemo cataC
        (some 1, some 2)).2.offset
      = (nfAdd (some 1) cataC.offset.1, nfAdd (some 2) cataC.offset.2) ∧
    (add_offset_to_catalogue_eff offsByDemo cataC
        (some 1, some 2)).2.table.length = cataC.table.length ∧
    ∀ i, i < cataC.table.length →
      (((add_offset_to_catalogue_eff offsByDemo cataC
          (some 1, some 2)).2.table.getD i dRow).payload
          = (cataC.table.getD i dRow).payload ∧
        ((add_offset_to_catalogue_eff offsByDemo cataC
          (some 1, some 2)).2.table.getD i dRow).ra
          = (offsByDemo ((cataC.table.getD i dRow).ra,
              (cataC.table.getD i dRow).dec)
              (nfSub (some 0) (some 1)) (nfSub (some 0) (some 2))).1 ∧
        ((add_offset_to_catalogue_eff offsByDemo cataC
          (some 1, some 2)).2.table.getD i dRow).dec
          = (offsByDemo ((cataC.table.getD i dRow).ra,
              (cataC.table.getD i dRow).dec)
              (nfSub (some 0) (some 1)) (nfSub (some 0) (some 2))).2) :=
  add_offset_to_catalogue_frame offsByDemo cataC (some 1, some 2)

end Askapmetry
